import Mathlib

/-!
Verification of the InterDeepResearch backend (IDR_backend).

This file gives a shallow embedding of the compaction, workflow-policy,
interrupt-cleanup, fuzzy-matching, highlight-composition and citation-tracing
logic of the repository, and proves properties about it.

Conventions:
* Python strings that are sliced / searched are embedded as `List Char`
  (named `PyStr`); strings only compared for equality stay `String`.
* External collaborators (the rapidfuzz aligner, `json.loads`, the LLM) are
  oracle parameters; everything else is translated from the source.
-/

/-- Python strings, embedded as character lists so that slicing and searching
are positional. -/
abbrev PyStr := List Char

namespace IDR

/-! ## Generation view: `BaseAgent._prepare_messages_for_llm`

`agent_state.context_list` entries are either tool-result dicts (created by
`_add_tool_result`: role `"tool"`, a tool name, full content, the
`_compact_content` field, and for `create_note` the
`_is_progress_summary_note` flag, defaulting to `False`), or non-tool entries
(system / user / assistant), which the view passes through as-is. -/

inductive Msg where
  /-- a `role = "tool"` entry of `context_list`, as built by `_add_tool_result` -/
  | tool (tool_call_id : String) (name : String) (content : String)
      (compact_content : String) (is_progress_summary_note : Bool)
  /-- any non-tool entry (system / user / assistant), passed through as-is -/
  | other (role : String) (content : String)
deriving Repr, DecidableEq

/-- `{"search_web", "scrape_webpage"}` (`BaseAgent.RAW_INFO_COLLECTION_TOOLS`). -/
def RAW_INFO_COLLECTION_TOOLS : List String := ["search_web", "scrape_webpage"]

def isRawToolMsg (m : Msg) : Bool :=
  match m with
  | .tool _ name _ _ _ => RAW_INFO_COLLECTION_TOOLS.contains name
  | .other _ _ => false

def isCreateNoteToolMsg (m : Msg) : Bool :=
  match m with
  | .tool _ name _ _ _ => name == "create_note"
  | .other _ _ => false

def isProgressSummaryToolMsg (m : Msg) : Bool :=
  match m with
  | .tool _ name _ _ flag => name == "create_note" && flag
  | .other _ _ => false

/-- The `for i, msg in enumerate(self.agent_state.context_list)` loop that
computes `last_create_note_idx` and `last_progress_summary_idx` (both start
at `-1`); `i` is the index of the head of the remaining list. -/
def noteIndicesAux : Nat → Int × Int → List Msg → Int × Int
  | _, acc, [] => acc
  | i, acc, m :: rest =>
      noteIndicesAux (i + 1)
        (match m with
         | .tool _ name _ _ flag =>
             if name == "create_note" then
               ((i : Int), if flag then (i : Int) else acc.2)
             else acc
         | .other _ _ => acc)
        rest

/-- `(last_create_note_idx, last_progress_summary_idx)` for a history. -/
def noteIndices (ctx : List Msg) : Int × Int :=
  noteIndicesAux 0 (-1, -1) ctx

/-- The `use_compact` decision of `_prepare_messages_for_llm` for the message
at index `i`, given the two cursors. -/
def use_compact_for (last_create_note_idx last_progress_summary_idx : Int)
    (i : Nat) (m : Msg) : Bool :=
  match m with
  | .tool _ name _ _ _ =>
      if RAW_INFO_COLLECTION_TOOLS.contains name then
        last_create_note_idx != -1 && decide ((i : Int) < last_create_note_idx)
      else if name == "create_note" then
        last_progress_summary_idx != -1 && decide ((i : Int) < last_progress_summary_idx)
      else false
  | .other _ _ => false

/-- An entry of the outbound message list: tool entries are rebuilt as
`{tool_call_id, role, name, content}` (the private fields are dropped),
non-tool entries are passed through. -/
inductive RenderedMsg where
  | tool (tool_call_id : String) (name : String) (content : String)
  | other (role : String) (content : String)
deriving Repr, DecidableEq

/-- Build the outbound entry for the message at index `i`. -/
def renderMsg (last_create_note_idx last_progress_summary_idx : Int)
    (i : Nat) (m : Msg) : RenderedMsg :=
  match m with
  | .tool tool_call_id name content compact_content _ =>
      .tool tool_call_id name
        (if use_compact_for last_create_note_idx last_progress_summary_idx i m
         then compact_content else content)
  | .other role content => .other role content

def renderAux (last_create_note_idx last_progress_summary_idx : Int) :
    Nat → List Msg → List RenderedMsg
  | _, [] => []
  | i, m :: rest =>
      renderMsg last_create_note_idx last_progress_summary_idx i m ::
        renderAux last_create_note_idx last_progress_summary_idx (i + 1) rest

/-- `BaseAgent._prepare_messages_for_llm`: the generation view of a history. -/
def prepare_messages_for_llm (ctx : List Msg) : List RenderedMsg :=
  let idxs := noteIndices ctx
  renderAux idxs.1 idxs.2 0 ctx

/-- The method reads `context_list` and builds a fresh list; it assigns to no
field of the agent state, so the persisted history component is returned
unchanged. -/
def prepare_messages_for_llm_state (ctx : List Msg) :
    List Msg × List RenderedMsg :=
  (ctx, prepare_messages_for_llm ctx)

/-- The compaction decision taken for index `i` of `ctx`. -/
def useCompactAt (ctx : List Msg) (i : Nat) : Bool :=
  match ctx.get? i with
  | some m => use_compact_for (noteIndices ctx).1 (noteIndices ctx).2 i m
  | none => false

/-! ## Workflow policy: note-creation enforcement and counters -/

/-- `BaseAgent.MAX_RAW_INFO_TOOL_CALLS_BEFORE_NOTE`. -/
def MAX_RAW_INFO_TOOL_CALLS_BEFORE_NOTE : Nat := 3

/-- `BaseAgent.MAX_NOTE_CALLS_BEFORE_SUMMARY`. -/
def MAX_NOTE_CALLS_BEFORE_SUMMARY : Nat := 3

/-- The two bounded policy counters of the agent state. -/
structure PolicyCounters where
  raw_info_tool_calls_since_last_note : Nat
  note_calls_since_last_summary : Nat
deriving Repr, DecidableEq

/-- `BaseAgent._check_note_creation_enforcement`: returns `some errorMessage`
when the call must be rejected, `none` otherwise. -/
def check_note_creation_enforcement (st : PolicyCounters)
    (function_name : String) (is_progress_summary : Bool) : Option String :=
  if RAW_INFO_COLLECTION_TOOLS.contains function_name &&
      decide (MAX_RAW_INFO_TOOL_CALLS_BEFORE_NOTE ≤
        st.raw_info_tool_calls_since_last_note) then
    some ("Error: You have made " ++
      toString st.raw_info_tool_calls_since_last_note ++
      " raw information collection tool calls (search_web/scrape_webpage) " ++
      "without creating a note. Please call create_note to record the " ++
      "findings before making more raw info collection tool calls.")
  else if function_name == "create_note" && !is_progress_summary &&
      decide (MAX_NOTE_CALLS_BEFORE_SUMMARY ≤
        st.note_calls_since_last_summary) then
    some ("Error: You have made " ++
      toString st.note_calls_since_last_summary ++
      " create_note calls with is_progress_summary_note=false without " ++
      "creating a progress summary note. Please call create_note with " ++
      "is_progress_summary_note=true to summarize the current progress.")
  else
    none

/-- `BaseAgent._update_note_creation_counters`. -/
def update_note_creation_counters (st : PolicyCounters)
    (function_name : String) (is_progress_summary : Bool) : PolicyCounters :=
  if function_name == "create_note" then
    let st := { st with raw_info_tool_calls_since_last_note := 0 }
    if is_progress_summary then
      { st with note_calls_since_last_summary := 0 }
    else
      { st with note_calls_since_last_summary :=
          st.note_calls_since_last_summary + 1 }
  else if RAW_INFO_COLLECTION_TOOLS.contains function_name then
    { st with raw_info_tool_calls_since_last_note :=
        st.raw_info_tool_calls_since_last_note + 1 }
  else
    st

/-- Steps 5–7 of `BaseAgent._execute_single_tool_call` for a call that passed
argument parsing and schema validation: the enforcement check either rejects
(logging the error message as an ordinary action result and leaving the
counters untouched) or the tool runs and the counters are updated. The
returned `Option String` is the error action-result, `none` on success. -/
def execute_policy_checked_call (st : PolicyCounters)
    (function_name : String) (is_progress_summary : Bool) :
    PolicyCounters × Option String :=
  match check_note_creation_enforcement st function_name is_progress_summary with
  | some err => (st, some err)
  | none => (update_note_creation_counters st function_name is_progress_summary,
      none)

/-! ## Decimal representation of card ids

Card ids are produced by Python's `str(...)` on integers and read back by
`int(...)`. `toString : Nat → String` plays the role of `str`, and
`valOfDigits` below plays the role of `int` on decimal strings. We prove the
roundtrip `valOfDigits (toString n).data = n`, which also gives injectivity
of the id encoding. -/

/-- Numeric value of a decimal digit character (`'0'.toNat = 48`). -/
def digitVal (c : Char) : Nat := c.toNat - 48

/-- `int(s)` for a decimal string, as a fold over the digit characters. -/
def valOfDigitsFrom (a : Nat) (l : List Char) : Nat :=
  l.foldl (fun acc c => acc * 10 + digitVal c) a

def valOfDigits (l : List Char) : Nat := valOfDigitsFrom 0 l

theorem digitVal_digitChar {m : Nat} (h : m < 10) :
    digitVal (Nat.digitChar m) = m := by
  interval_cases m <;> rfl

theorem toDigitsCore_append (f : Nat) :
    ∀ (n : Nat) (ds : List Char),
      Nat.toDigitsCore 10 f n ds = Nat.toDigitsCore 10 f n [] ++ ds := by
  induction f with
  | zero => intro n ds; simp [Nat.toDigitsCore]
  | succ f ih =>
    intro n ds
    simp only [Nat.toDigitsCore]
    by_cases h : n / 10 = 0
    · simp [h]
    · simp only [h, if_false]
      rw [ih (n / 10) (Nat.digitChar (n % 10) :: ds),
        ih (n / 10) [Nat.digitChar (n % 10)], List.append_assoc]
      rfl

theorem valOfDigitsFrom_append (a : Nat) (l₁ l₂ : List Char) :
    valOfDigitsFrom a (l₁ ++ l₂) = valOfDigitsFrom (valOfDigitsFrom a l₁) l₂ := by
  simp [valOfDigitsFrom, List.foldl_append]

theorem valOfDigitsFrom_toDigitsCore (f : Nat) :
    ∀ (n a : Nat), n < 10 ^ f →
      valOfDigitsFrom a (Nat.toDigitsCore 10 f n []) =
        a * 10 ^ (Nat.toDigitsCore 10 f n []).length + n := by
  induction f with
  | zero =>
    intro n a hn
    interval_cases n
    simp [Nat.toDigitsCore, valOfDigitsFrom]
  | succ f ih =>
    intro n a hn
    by_cases h : n / 10 = 0
    · have hlt : n < 10 := by omega
      have hmod : n % 10 = n := Nat.mod_eq_of_lt hlt
      simp [Nat.toDigitsCore, h, valOfDigitsFrom, hmod, digitVal_digitChar hlt]
    · have hdiv : n / 10 < 10 ^ f := by
        rw [Nat.div_lt_iff_lt_mul (by norm_num)]
        calc n < 10 ^ (f + 1) := hn
          _ = 10 ^ f * 10 := by ring
      simp only [Nat.toDigitsCore, h, if_false]
      rw [toDigitsCore_append f (n / 10) [Nat.digitChar (n % 10)],
        valOfDigitsFrom_append, ih (n / 10) a hdiv]
      have hm : digitVal (Nat.digitChar (n % 10)) = n % 10 :=
        digitVal_digitChar (Nat.mod_lt n (by norm_num))
      simp only [valOfDigitsFrom, List.foldl_cons, List.foldl_nil, hm,
        List.length_append, List.length_cons, List.length_nil]
      rw [Nat.add_mul, Nat.mul_comm (a * 10 ^ (Nat.toDigitsCore 10 f (n / 10) []).length) 10]
      rw [pow_add]
      have := Nat.div_add_mod n 10
      ring_nf
      omega

theorem valOfDigits_toString (n : Nat) : valOfDigits (toString n).data = n := by
  have hn : n < 10 ^ (n + 1) := by
    calc n < 10 ^ n := Nat.lt_pow_self (by norm_num) n
      _ < 10 ^ (n + 1) := Nat.pow_lt_pow_succ (by norm_num)
  have : (toString n).data = Nat.toDigitsCore 10 (n + 1) n [] := rfl
  rw [valOfDigits, this, valOfDigitsFrom_toDigitsCore (n + 1) n 0 hn]
  simp

theorem toString_nat_injective : Function.Injective (toString : Nat → String) := by
  intro m n h
  have := congrArg (fun s : String => valOfDigits s.data) h
  simpa [valOfDigits_toString] using this

/-! ## Card store: `generate_card_id` and interrupt cleanup

`agent_state.card_dict` is a Python dict from card id to card; only the
status of a card matters here, so the store is embedded as an
insertion-ordered association list from id to status. -/

inductive CardStatus where
  | in_progress
  | completed
deriving Repr, DecidableEq

abbrev CardDict := List (String × CardStatus)

/-- `card_dict[card.card_id] = card` (Python dict assignment: overwrite if
the key exists, else append). -/
def dictInsert (d : CardDict) (k : String) (v : CardStatus) : CardDict :=
  if d.any (fun p => p.1 == k) then
    d.map (fun p => if p.1 == k then (k, v) else p)
  else d ++ [(k, v)]

/-- `ProjectManager.generate_card_id`: `str(len(agent.card_dict) + 1)`. -/
def generate_card_id (d : CardDict) : String := toString (d.length + 1)

/-- `int(k)` applied to a card-id key. -/
def pyInt (s : String) : Nat := valOfDigits s.data

/-- `max(int(k) for k in card_dict.keys())`. -/
def maxIntKey (d : CardDict) : Nat :=
  (d.map (fun p => pyInt p.1)).foldl max 0

/-- Steps 2–3 of `BaseAgent._cleanup_interrupted_states`: collect the ids of
all `in_progress` cards, delete them from the store, and if the latest-card
pointer was among the removed ids recompute it as the highest remaining id
(after `int` conversion), or `None` if the store became empty. -/
def cleanup_interrupted_cards (card_dict : CardDict)
    (latest_card_id : Option String) : CardDict × Option String :=
  let cards_to_remove :=
    (card_dict.filter (fun p => p.2 == CardStatus.in_progress)).map (fun p => p.1)
  let card_dict' := card_dict.filter (fun p => !(p.2 == CardStatus.in_progress))
  let latest' :=
    match latest_card_id with
    | some l =>
        if cards_to_remove.contains l then
          if card_dict'.isEmpty then none
          else some (toString (maxIntKey card_dict'))
        else latest_card_id
    | none => latest_card_id
  (card_dict', latest')

/-- Session-level evolution of the card store, tracking as ghost state the
ids ever handed out by `generate_card_id` for created cards. -/
structure SessionCards where
  card_dict : CardDict
  latest_card_id : Option String
  created_ids : List String
deriving Repr, DecidableEq

inductive SessionOp where
  /-- `generate_card_id` followed by `add_info_card` (which also sets
  `latest_card_id` to the new card's id). -/
  | createCard (status : CardStatus)
  /-- interrupt observed: `_cleanup_interrupted_states` (card-store part). -/
  | interruptCleanup
deriving Repr, DecidableEq

def applySessionOp (st : SessionCards) : SessionOp → SessionCards
  | .createCard status =>
      let id := generate_card_id st.card_dict
      { card_dict := dictInsert st.card_dict id status
        latest_card_id := some id
        created_ids := st.created_ids ++ [id] }
  | .interruptCleanup =>
      let r := cleanup_interrupted_cards st.card_dict st.latest_card_id
      { st with card_dict := r.1, latest_card_id := r.2 }

def initialSession : SessionCards := ⟨[], none, []⟩

def runSessionAux (st : SessionCards) : List SessionOp → SessionCards
  | [] => st
  | op :: rest => runSessionAux (applySessionOp st op) rest

def runSession (ops : List SessionOp) : SessionCards :=
  runSessionAux initialSession ops

/-! ## Characterization of the compaction cursors -/

/-- The last index (offset by `k`) at which `p` holds, `a` if none: the shape
of the cursor-updating loop of `_prepare_messages_for_llm`. -/
def lastIdxFrom (p : Msg → Bool) : Nat → Int → List Msg → Int
  | _, a, [] => a
  | k, a, m :: rest => lastIdxFrom p (k + 1) (if p m then (k : Int) else a) rest

theorem noteIndicesAux_eq (l : List Msg) :
    ∀ (k : Nat) (acc : Int × Int),
      noteIndicesAux k acc l =
        (lastIdxFrom isCreateNoteToolMsg k acc.1 l,
         lastIdxFrom isProgressSummaryToolMsg k acc.2 l) := by
  induction l with
  | nil => intro k acc; rfl
  | cons m rest ih =>
    intro k acc
    cases m with
    | tool id name c cc flag =>
        by_cases h : name == "create_note"
        · by_cases hf : flag <;>
            simp [noteIndicesAux, lastIdxFrom, isCreateNoteToolMsg,
              isProgressSummaryToolMsg, h, hf, ih]
        · simp [noteIndicesAux, lastIdxFrom, isCreateNoteToolMsg,
            isProgressSummaryToolMsg, h, ih]
    | other r c =>
        simp [noteIndicesAux, lastIdxFrom, isCreateNoteToolMsg,
          isProgressSummaryToolMsg, ih]

theorem lastIdxFrom_acc_le (p : Msg → Bool) (l : List Msg) :
    ∀ (k : Nat) (a : Int), a ≤ (k : Int) → a ≤ lastIdxFrom p k a l := by
  induction l with
  | nil => intro k a h; exact le_refl a
  | cons m rest ih =>
    intro k a h
    rw [lastIdxFrom]
    by_cases hp : p m
    · simp only [hp, if_true]
      exact le_trans h (ih (k + 1) (k : Int) (by exact_mod_cast Nat.le_succ k))
    · simp only [hp, if_false]
      exact ih (k + 1) a (le_trans h (by exact_mod_cast Nat.le_succ k))

theorem lastIdxFrom_mem_le (p : Msg → Bool) (l : List Msg) :
    ∀ (k : Nat) (a : Int) (j : Nat) (m : Msg),
      l.get? j = some m → p m = true →
      (k : Int) + (j : Int) ≤ lastIdxFrom p k a l := by
  induction l with
  | nil => intro k a j m hj; simp at hj
  | cons m₀ rest ih =>
    intro k a j m hj hp
    cases j with
    | zero =>
        simp only [List.get?] at hj
        cases hj
        rw [lastIdxFrom]
        simp only [hp, if_true, Int.natCast_zero, add_zero]
        exact lastIdxFrom_acc_le p rest (k + 1) (k : Int)
          (by exact_mod_cast Nat.le_succ k)
    | succ j' =>
        simp only [List.get?] at hj
        rw [lastIdxFrom]
        have := ih (k + 1) (if p m₀ then (k : Int) else a) j' m hj hp
        push_cast at this ⊢
        omega

theorem lastIdxFrom_cases (p : Msg → Bool) (l : List Msg) :
    ∀ (k : Nat) (a : Int),
      lastIdxFrom p k a l = a ∨
        ∃ j m, l.get? j = some m ∧ p m = true ∧
          lastIdxFrom p k a l = (k : Int) + (j : Int) := by
  induction l with
  | nil => intro k a; exact Or.inl rfl
  | cons m₀ rest ih =>
    intro k a
    rw [lastIdxFrom]
    by_cases hp : p m₀
    · rw [if_pos hp]
      rcases ih (k + 1) (k : Int) with h | ⟨j, m, hj, hp', hv⟩
      · exact Or.inr ⟨0, m₀, rfl, hp, by simpa using h⟩
      · exact Or.inr ⟨j + 1, m, hj, hp', by rw [hv]; push_cast; ring⟩
    · rw [if_neg hp]
      rcases ih (k + 1) a with h | ⟨j, m, hj, hp', hv⟩
      · exact Or.inl h
      · exact Or.inr ⟨j + 1, m, hj, hp', by rw [hv]; push_cast; ring⟩

/-- The compaction test `idx != -1 && i < idx` against a last-index cursor is
exactly "there is a later entry satisfying `p`". -/
theorem lastIdx_compare_iff (p : Msg → Bool) (ctx : List Msg) (i : Nat) :
    ((lastIdxFrom p 0 (-1) ctx != -1 &&
        decide ((i : Int) < lastIdxFrom p 0 (-1) ctx)) = true) ↔
      ∃ j m', i < j ∧ ctx.get? j = some m' ∧ p m' = true := by
  constructor
  · intro h
    rw [Bool.and_eq_true, decide_eq_true_eq] at h
    rcases lastIdxFrom_cases p ctx 0 (-1) with hc | ⟨j, m, hj, hp, hv⟩
    · exfalso
      have := h.2
      rw [hc] at this
      omega
    · refine ⟨j, m, ?_, hj, hp⟩
      have := h.2
      rw [hv] at this
      exact_mod_cast (by omega : (i : Int) < (j : Int))
  · rintro ⟨j, m, hij, hj, hp⟩
    have hle := lastIdxFrom_mem_le p ctx 0 (-1) j m hj hp
    rw [Bool.and_eq_true, decide_eq_true_eq]
    constructor
    · rw [bne_iff_ne]
      intro hc
      rw [hc] at hle
      omega
    · have : (i : Int) < (j : Int) := by exact_mod_cast hij
      omega

theorem useCompactAt_raw (ctx : List Msg) (i : Nat) (m : Msg)
    (hm : ctx.get? i = some m) (hraw : isRawToolMsg m = true) :
    (useCompactAt ctx i = true ↔
      ∃ j m', i < j ∧ ctx.get? j = some m' ∧ isCreateNoteToolMsg m' = true) := by
  unfold useCompactAt
  rw [hm]
  have hn : noteIndices ctx =
      (lastIdxFrom isCreateNoteToolMsg 0 (-1) ctx,
       lastIdxFrom isProgressSummaryToolMsg 0 (-1) ctx) :=
    noteIndicesAux_eq ctx 0 (-1, -1)
  rw [hn]
  cases m with
  | tool id name c cc flag =>
      simp only [isRawToolMsg] at hraw
      simp only [use_compact_for, hraw, if_true]
      exact lastIdx_compare_iff isCreateNoteToolMsg ctx i
  | other r c => simp [isRawToolMsg] at hraw

theorem useCompactAt_note (ctx : List Msg) (i : Nat) (m : Msg)
    (hm : ctx.get? i = some m) (hnote : isCreateNoteToolMsg m = true) :
    (useCompactAt ctx i = true ↔
      ∃ j m', i < j ∧ ctx.get? j = some m' ∧ isProgressSummaryToolMsg m' = true) := by
  unfold useCompactAt
  rw [hm]
  have hn : noteIndices ctx =
      (lastIdxFrom isCreateNoteToolMsg 0 (-1) ctx,
       lastIdxFrom isProgressSummaryToolMsg 0 (-1) ctx) :=
    noteIndicesAux_eq ctx 0 (-1, -1)
  rw [hn]
  cases m with
  | tool id name c cc flag =>
      simp only [isCreateNoteToolMsg, beq_iff_eq] at hnote
      subst hnote
      have hnotraw : RAW_INFO_COLLECTION_TOOLS.contains "create_note" = false := by
        decide
      simp only [use_compact_for, hnotraw, Bool.false_eq_true, if_false,
        beq_self_eq_true, if_true]
      exact lastIdx_compare_iff isProgressSummaryToolMsg ctx i
  | other r c => simp [isCreateNoteToolMsg] at hnote

theorem useCompactAt_other (ctx : List Msg) (i : Nat) (m : Msg)
    (hm : ctx.get? i = some m) (hraw : isRawToolMsg m = false)
    (hnote : isCreateNoteToolMsg m = false) :
    useCompactAt ctx i = false := by
  unfold useCompactAt
  rw [hm]
  cases m with
  | tool id name c cc flag =>
      simp only [isRawToolMsg] at hraw
      simp only [isCreateNoteToolMsg] at hnote
      simp only [use_compact_for, hraw, hnote, Bool.false_eq_true, if_false]
  | other r c => simp [use_compact_for]

theorem renderAux_get (a b : Int) (l : List Msg) :
    ∀ (k i : Nat),
      (renderAux a b k l).get? i = (l.get? i).map (fun m => renderMsg a b (k + i) m) := by
  induction l with
  | nil => intro k i; cases i <;> rfl
  | cons m rest ih =>
    intro k i
    cases i with
    | zero => simp [renderAux]
    | succ i' =>
        simp only [renderAux, List.get?]
        rw [ih (k + 1) i']
        have harith : k + 1 + i' = k + (i' + 1) := by omega
        rw [harith]

theorem prepare_messages_get (ctx : List Msg) (i : Nat) (m : Msg)
    (hm : ctx.get? i = some m) :
    (prepare_messages_for_llm ctx).get? i =
      some (renderMsg (noteIndices ctx).1 (noteIndices ctx).2 i m) := by
  unfold prepare_messages_for_llm
  rw [renderAux_get, hm]
  simp

theorem renderMsg_tool_eq (ctx : List Msg) (i : Nat)
    (id name c cc : String) (flag : Bool)
    (hm : ctx.get? i = some (.tool id name c cc flag)) :
    renderMsg (noteIndices ctx).1 (noteIndices ctx).2 i (.tool id name c cc flag) =
      .tool id name (if useCompactAt ctx i = true then cc else c) := by
  unfold renderMsg useCompactAt
  rw [hm]

theorem summary_is_create_note {m : Msg}
    (h : isProgressSummaryToolMsg m = true) : isCreateNoteToolMsg m = true := by
  cases m with
  | tool id name c cc flag =>
      simp only [isProgressSummaryToolMsg, Bool.and_eq_true] at h
      simp [isCreateNoteToolMsg, h.1]
  | other r c => simp [isProgressSummaryToolMsg] at h

/-- Claim C1: in the generation view built by `_prepare_messages_for_llm`, a
raw-acquisition (`search_web`/`scrape_webpage`) result is rendered compact iff
a synthesis (`create_note`) result occurs later in the history (i.e. the
result is before the most recent synthesis); a synthesis result is rendered
compact iff a summary-synthesis result occurs later; every other entry is
rendered full; the rendered entry at each index picks the compact or full
content accordingly; and building the view leaves the persisted history
component unchanged. -/
theorem C1_generation_view_compaction (ctx : List Msg) (i : Nat) (m : Msg)
    (hm : ctx.get? i = some m) :
    (isRawToolMsg m = true →
      (useCompactAt ctx i = true ↔
        ∃ j m', i < j ∧ ctx.get? j = some m' ∧ isCreateNoteToolMsg m' = true)) ∧
    (isCreateNoteToolMsg m = true →
      (useCompactAt ctx i = true ↔
        ∃ j m', i < j ∧ ctx.get? j = some m' ∧ isProgressSummaryToolMsg m' = true)) ∧
    (isRawToolMsg m = false → isCreateNoteToolMsg m = false →
      useCompactAt ctx i = false) ∧
    (∀ id name c cc flag, m = .tool id name c cc flag →
      (prepare_messages_for_llm ctx).get? i =
        some (.tool id name (if useCompactAt ctx i = true then cc else c))) ∧
    (∀ r c, m = .other r c →
      (prepare_messages_for_llm ctx).get? i = some (.other r c)) ∧
    (prepare_messages_for_llm_state ctx).1 = ctx := by
  refine ⟨useCompactAt_raw ctx i m hm, useCompactAt_note ctx i m hm,
    useCompactAt_other ctx i m hm, ?_, ?_, rfl⟩
  · intro id name c cc flag hmt
    subst hmt
    rw [prepare_messages_get ctx i _ hm, renderMsg_tool_eq ctx i id name c cc flag hm]
  · intro r c hmt
    subst hmt
    rw [prepare_messages_get ctx i _ hm]
    rfl

def msgW_raw : Msg := .tool "t1" "search_web" "full search result" "ptr" false

def msgW_note : Msg := .tool "t2" "create_note" "full note" "note ptr" false

def ctxW : List Msg := [.other "user" "question", msgW_raw, msgW_note]

theorem C1_generation_view_compaction_witness :
    useCompactAt ctxW 1 = true ∧
    (prepare_messages_for_llm ctxW).get? 1 = some (.tool "t1" "search_web" "ptr") := by
  have h := C1_generation_view_compaction ctxW 1 msgW_raw rfl
  have hc : useCompactAt ctxW 1 = true :=
    (h.1 rfl).mpr ⟨2, msgW_note, by omega, rfl, rfl⟩
  refine ⟨hc, ?_⟩
  have h4 := h.2.2.2.1 "t1" "search_web" "full search result" "ptr" false rfl
  rw [h4, hc]
  simp

def ctxC4 : List Msg :=
  [.tool "t1" "create_note" "full note 0" "ptr 0" false,
   .tool "t2" "create_note" "full note 1" "ptr 1" false]

/-- Claim C4 is false on the code: in the history `ctxC4` the synthesis
result at index 0 occurs before the most recent synthesis result (index 1),
yet it is rendered full, so it is not the case that exactly the most recent
synthesis-kind result is full with all earlier ones compact. -/
theorem C4_counterexample :
    ctxC4.get? 0 = some (Msg.tool "t1" "create_note" "full note 0" "ptr 0" false) ∧
    ctxC4.get? 1 = some (Msg.tool "t2" "create_note" "full note 1" "ptr 1" false) ∧
    isCreateNoteToolMsg (Msg.tool "t1" "create_note" "full note 0" "ptr 0" false) = true ∧
    isCreateNoteToolMsg (Msg.tool "t2" "create_note" "full note 1" "ptr 1" false) = true ∧
    useCompactAt ctxC4 0 = false ∧
    (prepare_messages_for_llm ctxC4).get? 0 =
      some (.tool "t1" "create_note" "full note 0") := by
  decide

/-- Claim C4, amended: among summary-kind results exactly the most recent is
rendered full (all earlier summary results are compact); the most recent
synthesis-kind result is always rendered full; but a synthesis-kind result is
compact exactly when it precedes the most recent summary-synthesis result, so
several synthesis-kind results may be full simultaneously. -/
theorem C4_compaction_boundary (ctx : List Msg) (i : Nat) (m : Msg)
    (hm : ctx.get? i = some m) :
    (isProgressSummaryToolMsg m = true →
      (useCompactAt ctx i = false ↔
        ∀ j m', i < j → ctx.get? j = some m' → isProgressSummaryToolMsg m' = false)) ∧
    (isCreateNoteToolMsg m = true →
      (∀ j m', i < j → ctx.get? j = some m' → isCreateNoteToolMsg m' = false) →
      useCompactAt ctx i = false) ∧
    (isCreateNoteToolMsg m = true →
      (useCompactAt ctx i = true ↔
        ∃ j m', i < j ∧ ctx.get? j = some m' ∧ isProgressSummaryToolMsg m' = true)) := by
  refine ⟨?_, ?_, useCompactAt_note ctx i m hm⟩
  · intro hs
    have hiff := useCompactAt_note ctx i m hm (summary_is_create_note hs)
    constructor
    · intro hfalse j m' hij hj
      cases hps : isProgressSummaryToolMsg m' with
      | false => rfl
      | true =>
          have : useCompactAt ctx i = true := hiff.mpr ⟨j, m', hij, hj, hps⟩
          rw [this] at hfalse
          exact absurd hfalse (by simp)
    · intro hall
      cases hu : useCompactAt ctx i with
      | false => rfl
      | true =>
          rcases hiff.mp hu with ⟨j, m', hij, hj, hs'⟩
          rw [hall j m' hij hj] at hs'
          exact absurd hs' (by simp)
  · intro hn hall
    have hiff := useCompactAt_note ctx i m hm hn
    cases hu : useCompactAt ctx i with
    | false => rfl
    | true =>
        rcases hiff.mp hu with ⟨j, m', hij, hj, hs'⟩
        have hc' := summary_is_create_note hs'
        rw [hall j m' hij hj] at hc'
        exact absurd hc' (by simp)

def ctxC4w : List Msg := [.tool "s1" "create_note" "full summary" "sum ptr" true]

theorem C4_compaction_boundary_witness : useCompactAt ctxC4w 0 = false := by
  have h := C4_compaction_boundary ctxC4w 0
    (.tool "s1" "create_note" "full summary" "sum ptr" true) rfl
  refine (h.1 rfl).mpr ?_
  intro j m' hij hj
  match j, hij with
  | j' + 1, _ => simp [ctxC4w] at hj

/-- Run a sequence of policy-checked calls `(function_name,
is_progress_summary)` from a counter state, collecting for each call whether
it was rejected. -/
def runPolicyCalls (st : PolicyCounters) : List (String × Bool) → PolicyCounters × List Bool
  | [] => (st, [])
  | (fn, s) :: rest =>
      let r := execute_policy_checked_call st fn s
      let rec' := runPolicyCalls r.1 rest
      (rec'.1, r.2.isSome :: rec'.2)

/-- Claim C2: with the default ceilings of 3, a raw-acquisition call is
rejected (an error action-result, counters untouched) exactly when the
acquisition counter has reached the ceiling, and on success increments it;
a non-summary synthesis is rejected exactly when the summary counter has
reached its ceiling, and on success resets the acquisition counter and
increments the summary counter; a summary synthesis is never rejected and
resets both counters; and from fresh counters three consecutive raw
acquisitions succeed, a fourth is rejected, and after one synthesis raw
acquisitions succeed again. -/
theorem C2_note_creation_enforcement :
    (∀ (st : PolicyCounters) (fn : String) (isSum : Bool),
      RAW_INFO_COLLECTION_TOOLS.contains fn = true →
      ((execute_policy_checked_call st fn isSum).2.isSome = true ↔
        MAX_RAW_INFO_TOOL_CALLS_BEFORE_NOTE ≤ st.raw_info_tool_calls_since_last_note) ∧
      ((execute_policy_checked_call st fn isSum).2.isSome = true →
        (execute_policy_checked_call st fn isSum).1 = st) ∧
      ((execute_policy_checked_call st fn isSum).2 = none →
        (execute_policy_checked_call st fn isSum).1 =
          ⟨st.raw_info_tool_calls_since_last_note + 1,
           st.note_calls_since_last_summary⟩)) ∧
    (∀ st : PolicyCounters,
      ((execute_policy_checked_call st "create_note" false).2.isSome = true ↔
        MAX_NOTE_CALLS_BEFORE_SUMMARY ≤ st.note_calls_since_last_summary) ∧
      ((execute_policy_checked_call st "create_note" false).2.isSome = true →
        (execute_policy_checked_call st "create_note" false).1 = st) ∧
      ((execute_policy_checked_call st "create_note" false).2 = none →
        (execute_policy_checked_call st "create_note" false).1 =
          ⟨0, st.note_calls_since_last_summary + 1⟩)) ∧
    (∀ st : PolicyCounters,
      (execute_policy_checked_call st "create_note" true).2 = none ∧
      (execute_policy_checked_call st "create_note" true).1 = ⟨0, 0⟩) ∧
    runPolicyCalls ⟨0, 0⟩
        [("search_web", false), ("search_web", false), ("scrape_webpage", false),
         ("search_web", false), ("create_note", false), ("search_web", false)] =
      (⟨1, 1⟩, [false, false, false, true, false, false]) := by
  refine ⟨?_, ?_, ?_, by decide⟩
  · intro st fn isSum hfn
    have hfn' : fn = "search_web" ∨ fn = "scrape_webpage" := by
      simpa [RAW_INFO_COLLECTION_TOOLS] using hfn
    rcases hfn' with rfl | rfl <;>
      by_cases hc : MAX_RAW_INFO_TOOL_CALLS_BEFORE_NOTE ≤
          st.raw_info_tool_calls_since_last_note <;>
        simp [execute_policy_checked_call, check_note_creation_enforcement,
          update_note_creation_counters, RAW_INFO_COLLECTION_TOOLS, hc]
  · intro st
    by_cases hc : MAX_NOTE_CALLS_BEFORE_SUMMARY ≤ st.note_calls_since_last_summary <;>
      simp [execute_policy_checked_call, check_note_creation_enforcement,
        update_note_creation_counters, RAW_INFO_COLLECTION_TOOLS, hc]
  · intro st
    simp [execute_policy_checked_call, check_note_creation_enforcement,
      update_note_creation_counters, RAW_INFO_COLLECTION_TOOLS]

theorem C2_note_creation_enforcement_witness :
    (execute_policy_checked_call ⟨3, 0⟩ "search_web" false).2.isSome = true ∧
    (execute_policy_checked_call ⟨3, 0⟩ "search_web" false).1 = ⟨3, 0⟩ ∧
    (execute_policy_checked_call ⟨2, 0⟩ "search_web" false).2 = none := by
  have h := C2_note_creation_enforcement.1
  refine ⟨(h ⟨3, 0⟩ "search_web" false rfl).1.mpr (by decide), ?_, ?_⟩
  · exact (h ⟨3, 0⟩ "search_web" false rfl).2.1
      ((h ⟨3, 0⟩ "search_web" false rfl).1.mpr (by decide))
  · cases he : (execute_policy_checked_call ⟨2, 0⟩ "search_web" false).2 with
    | none => rfl
    | some err =>
        have := (h ⟨2, 0⟩ "search_web" false rfl).1.mp (by rw [he]; rfl)
        simp [MAX_RAW_INFO_TOOL_CALLS_BEFORE_NOTE] at this

/-! ## Card-id uniqueness (C5) and interrupt cleanup (C6) -/

theorem fresh_id_not_mem (n : Nat) :
    toString (n + 1) ∉ (List.range n).map (fun i : Nat => toString (i + 1)) := by
  intro hmem
  rcases List.mem_map.mp hmem with ⟨i, hi, hEq⟩
  have : i + 1 = n + 1 := toString_nat_injective hEq
  have : i = n := by omega
  rw [this] at hi
  exact absurd (List.mem_range.mp hi) (lt_irrefl n)

/-- The invariant maintained by `create` operations: both the store keys and
the set of ids ever generated are exactly `"1" … "n"` for `n` the store
size. -/
def sessionIdsInv (st : SessionCards) : Prop :=
  st.card_dict.map Prod.fst =
    (List.range st.card_dict.length).map (fun i : Nat => toString (i + 1)) ∧
  st.created_ids =
    (List.range st.card_dict.length).map (fun i : Nat => toString (i + 1))

theorem applySessionOp_create_inv (st : SessionCards) (status : CardStatus)
    (h : sessionIdsInv st) :
    sessionIdsInv (applySessionOp st (SessionOp.createCard status)) := by
  obtain ⟨hkeys, hids⟩ := h
  have hfresh : generate_card_id st.card_dict ∉ st.card_dict.map Prod.fst := by
    rw [hkeys]
    exact fresh_id_not_mem st.card_dict.length
  have hany : st.card_dict.any (fun p => p.1 == generate_card_id st.card_dict) = false := by
    rw [List.any_eq_false]
    intro p hp
    simp only [beq_iff_eq]
    intro hEq
    exact hfresh (hEq ▸ List.mem_map_of_mem Prod.fst hp)
  have hins : (applySessionOp st (SessionOp.createCard status)).card_dict =
      st.card_dict ++ [(generate_card_id st.card_dict, status)] := by
    show dictInsert st.card_dict (generate_card_id st.card_dict) status = _
    unfold dictInsert
    rw [hany]
    simp
  have hlen : (applySessionOp st (SessionOp.createCard status)).card_dict.length =
      st.card_dict.length + 1 := by
    rw [hins, List.length_append]
    rfl
  constructor
  · rw [hins, List.map_append, hkeys, List.length_append,
      List.length_singleton, List.range_succ, List.map_append]
    rfl
  · show st.created_ids ++ [generate_card_id st.card_dict] = _
    rw [hids, hlen, List.range_succ, List.map_append]
    rfl

theorem runSessionAux_inv (ops : List SessionOp) :
    ∀ st : SessionCards, (∀ op ∈ ops, op ≠ SessionOp.interruptCleanup) →
      sessionIdsInv st → sessionIdsInv (runSessionAux st ops) := by
  induction ops with
  | nil => intro st _ h; exact h
  | cons op rest ih =>
    intro st hops h
    rw [runSessionAux]
    cases op with
    | createCard status =>
        exact ih (applySessionOp st (.createCard status))
          (fun o ho => hops o (List.mem_cons_of_mem _ ho))
          (applySessionOp_create_inv st status h)
    | interruptCleanup =>
        exact absurd rfl (hops _ (List.mem_cons_self _ _))

/-- Claim C5 is false on the code: after one card is created in-progress and
interrupt cleanup removes it, `generate_card_id` hands out `"1"` again, which
equals the id of a card previously created in the session. -/
theorem C5_counterexample :
    generate_card_id
        (runSession [SessionOp.createCard .in_progress,
          SessionOp.interruptCleanup]).card_dict ∈
      (runSession [SessionOp.createCard .in_progress,
        SessionOp.interruptCleanup]).created_ids := by
  decide

/-- Claim C5, amended: as long as no interrupt cleanup has removed cards from
the store, every id newly generated by `generate_card_id` is distinct from
the id of every card previously created in the session (and from every key
currently in the store); because the generator is `str(len(card_dict) + 1)`,
a cleanup that removes cards makes it reuse previously created ids. -/
theorem C5_card_ids_unique (ops : List SessionOp)
    (h : ∀ op ∈ ops, op ≠ SessionOp.interruptCleanup) :
    generate_card_id (runSession ops).card_dict ∉ (runSession ops).created_ids ∧
    generate_card_id (runSession ops).card_dict ∉
      (runSession ops).card_dict.map Prod.fst := by
  have hinv : sessionIdsInv (runSession ops) :=
    runSessionAux_inv ops initialSession h ⟨rfl, rfl⟩
  obtain ⟨hkeys, hids⟩ := hinv
  constructor
  · rw [hids]; exact fresh_id_not_mem _
  · rw [hkeys]; exact fresh_id_not_mem _

theorem C5_card_ids_unique_witness :
    generate_card_id (runSession [SessionOp.createCard .completed]).card_dict ∉
      (runSession [SessionOp.createCard .completed]).created_ids :=
  (C5_card_ids_unique [SessionOp.createCard .completed]
    (by intro op hop; simp at hop; simp [hop])).1

/-! Helper facts about `foldl max`. -/

theorem foldl_max_le (l : List Nat) :
    ∀ (a c : Nat), a ≤ c → (∀ x ∈ l, x ≤ c) → l.foldl max a ≤ c := by
  induction l with
  | nil => intro a c ha _; exact ha
  | cons x rest ih =>
    intro a c ha hall
    rw [List.foldl_cons]
    exact ih (max a x) c (max_le ha (hall x (List.mem_cons_self _ _)))
      (fun y hy => hall y (List.mem_cons_of_mem _ hy))

theorem le_foldl_max_init (l : List Nat) :
    ∀ a : Nat, a ≤ l.foldl max a := by
  induction l with
  | nil => intro a; exact le_refl a
  | cons x rest ih =>
    intro a
    rw [List.foldl_cons]
    exact le_trans (le_max_left a x) (ih (max a x))

theorem le_foldl_max_mem (l : List Nat) :
    ∀ (a x : Nat), x ∈ l → x ≤ l.foldl max a := by
  induction l with
  | nil => intro a x hx; simp at hx
  | cons y rest ih =>
    intro a x hx
    rw [List.foldl_cons]
    rcases List.mem_cons.mp hx with rfl | hx'
    · exact le_trans (le_max_right a x) (le_foldl_max_init rest (max a x))
    · exact ih (max a y) x hx'

theorem foldl_max_mem_or (l : List Nat) :
    ∀ a : Nat, l.foldl max a = a ∨ l.foldl max a ∈ l := by
  induction l with
  | nil => intro a; exact Or.inl rfl
  | cons x rest ih =>
    intro a
    rw [List.foldl_cons]
    rcases ih (max a x) with h | h
    · rcases max_cases a x with ⟨hm, _⟩ | ⟨hm, _⟩
      · rw [hm] at h ⊢; exact Or.inl h
      · rw [hm] at h ⊢
        exact Or.inr (by rw [h]; exact List.mem_cons_self x rest)
    · exact Or.inr (List.mem_cons_of_mem _ h)

theorem pyInt_toString (k : Nat) : pyInt (toString k) = k :=
  valOfDigits_toString k

theorem cleanup_snd_some (d : CardDict) (l : String) :
    (cleanup_interrupted_cards d (some l)).2 =
      if ((d.filter (fun p => p.2 == CardStatus.in_progress)).map
            (fun p => p.1)).contains l then
        (if (d.filter (fun p => !(p.2 == CardStatus.in_progress))).isEmpty then
          none
        else
          some (toString (maxIntKey
            (d.filter (fun p => !(p.2 == CardStatus.in_progress))))))
      else some l := rfl

theorem cleanup_snd_none (d : CardDict) :
    (cleanup_interrupted_cards d none).2 = none := rfl

theorem contains_iff_mem {α : Type} [BEq α] [LawfulBEq α] {l : List α} {a : α} :
    l.contains a = true ↔ a ∈ l := List.elem_iff

/-- Claim C6: interrupt cleanup removes exactly the `in_progress` cards from
the store, and the latest-card pointer ends up as the highest remaining id
(after `int` conversion) or `none` if the store became empty; in particular
with a single in-progress card and nothing else, the card is removed and the
pointer becomes `none`. Stated for reachable stores, whose keys are
`"1" … "n"` with the pointer at `"n"`. -/
theorem C6_interrupt_cleanup (d : CardDict) (latest : Option String) (n : Nat)
    (hkeys : d.map Prod.fst = (List.range n).map (fun i : Nat => toString (i + 1)))
    (hlatest : latest = if n = 0 then none else some (toString n)) :
    (cleanup_interrupted_cards d latest).1 =
      d.filter (fun p => !(p.2 == CardStatus.in_progress)) ∧
    (∀ p ∈ (cleanup_interrupted_cards d latest).1, p.2 = CardStatus.completed) ∧
    (∀ p ∈ d, p.2 = CardStatus.completed →
      p ∈ (cleanup_interrupted_cards d latest).1) ∧
    ((cleanup_interrupted_cards d latest).1 = [] →
      (cleanup_interrupted_cards d latest).2 = none) ∧
    ((cleanup_interrupted_cards d latest).1 ≠ [] →
      (cleanup_interrupted_cards d latest).2 =
        some (toString (maxIntKey (cleanup_interrupted_cards d latest).1)) ∧
      toString (maxIntKey (cleanup_interrupted_cards d latest).1) ∈
        (cleanup_interrupted_cards d latest).1.map Prod.fst ∧
      ∀ p ∈ (cleanup_interrupted_cards d latest).1,
        pyInt p.1 ≤ maxIntKey (cleanup_interrupted_cards d latest).1) := by
  subst hlatest
  by_cases hn : n = 0
  · subst hn
    have hd : d = [] := by simpa using hkeys
    subst hd
    refine ⟨rfl, ?_, ?_, ?_, ?_⟩ <;>
      simp [cleanup_interrupted_cards]
  · rw [if_neg hn]
    have hr1 : (cleanup_interrupted_cards d (some (toString n))).1 =
        d.filter (fun p => !(p.2 == CardStatus.in_progress)) := rfl
    have hkey_form : ∀ p ∈ d, ∃ i, i < n ∧ p.1 = toString (i + 1) := by
      intro p hp
      have hmm : p.1 ∈ d.map Prod.fst := List.mem_map_of_mem Prod.fst hp
      rw [hkeys] at hmm
      rcases List.mem_map.mp hmm with ⟨i, hi, hEq⟩
      exact ⟨i, List.mem_range.mp hi, hEq.symm⟩
    have hpy_bound : ∀ p ∈ d, 1 ≤ pyInt p.1 ∧ pyInt p.1 ≤ n := by
      intro p hp
      rcases hkey_form p hp with ⟨i, hi, hEq⟩
      rw [hEq, pyInt_toString]
      omega
    have hfilter_sub : ∀ p ∈ (cleanup_interrupted_cards d (some (toString n))).1,
        p ∈ d := by
      intro p hp
      rw [hr1] at hp
      exact List.mem_of_mem_filter hp
    have hmax_bound : ∀ p ∈ (cleanup_interrupted_cards d (some (toString n))).1,
        pyInt p.1 ≤ maxIntKey (cleanup_interrupted_cards d (some (toString n))).1 := by
      intro p hp
      exact le_foldl_max_mem _ 0 (pyInt p.1)
        (List.mem_map_of_mem (fun q => pyInt q.1) hp)
    have hmax_le_n : maxIntKey (cleanup_interrupted_cards d (some (toString n))).1 ≤ n := by
      apply foldl_max_le _ 0 n (Nat.zero_le n)
      intro x hx
      rcases List.mem_map.mp hx with ⟨q, hq, hEq⟩
      rw [← hEq]
      exact (hpy_bound q (hfilter_sub q hq)).2
    have hmax_mem : (cleanup_interrupted_cards d (some (toString n))).1 ≠ [] →
        toString (maxIntKey (cleanup_interrupted_cards d (some (toString n))).1) ∈
          (cleanup_interrupted_cards d (some (toString n))).1.map Prod.fst := by
      intro hne
      rcases foldl_max_mem_or
          ((cleanup_interrupted_cards d (some (toString n))).1.map
            (fun q => pyInt q.1)) 0 with h0 | hmem
      · exfalso
        rcases List.exists_mem_of_ne_nil _ hne with ⟨q, hq⟩
        have h1 : 1 ≤ pyInt q.1 := (hpy_bound q (hfilter_sub q hq)).1
        have h2 := hmax_bound q hq
        rw [maxIntKey] at h2
        omega
      · rcases List.mem_map.mp hmem with ⟨q, hq, hEq⟩
        rcases hkey_form q (hfilter_sub q hq) with ⟨i, _, hkq⟩
        have hts : toString
            (maxIntKey (cleanup_interrupted_cards d (some (toString n))).1) = q.1 := by
          rw [maxIntKey, ← hEq, hkq, pyInt_toString]
        rw [hts]
        exact List.mem_map_of_mem Prod.fst hq
    -- the entry carrying the pointer's key
    have hpk_mem : toString n ∈ d.map Prod.fst := by
      rw [hkeys]
      exact List.mem_map.mpr ⟨n - 1, List.mem_range.mpr (by omega),
        by congr 1; omega⟩
    rcases List.mem_map.mp hpk_mem with ⟨p, hpd, hpk⟩
    refine ⟨hr1, ?_, ?_, ?_, ?_⟩
    · intro q hq
      rw [hr1] at hq
      have hqf := (List.mem_filter.mp hq).2
      cases hstat : q.2 with
      | in_progress => rw [hstat] at hqf; simp at hqf
      | completed => rfl
    · intro q hq hcomp
      rw [hr1]
      exact List.mem_filter.mpr ⟨hq, by rw [hcomp]; rfl⟩
    · -- empty remainder: the pointer held an in-progress card, becomes none
      intro hempty
      have hprog : p.2 = CardStatus.in_progress := by
        cases hstat : p.2 with
        | in_progress => rfl
        | completed =>
            exfalso
            have hmem : p ∈ (cleanup_interrupted_cards d (some (toString n))).1 := by
              rw [hr1]
              exact List.mem_filter.mpr ⟨hpd, by rw [hstat]; rfl⟩
            rw [hempty] at hmem
            exact List.not_mem_nil p hmem
      have hpf : p ∈ d.filter (fun q => q.2 == CardStatus.in_progress) :=
        List.mem_filter.mpr ⟨hpd, by rw [hprog]; rfl⟩
      have hcont : ((d.filter (fun q => q.2 == CardStatus.in_progress)).map
          (fun q => q.1)).contains (toString n) = true := by
        apply contains_iff_mem.mpr
        rw [← hpk]
        exact List.mem_map_of_mem (fun q => q.1) hpf
      rw [cleanup_snd_some]
      rw [hcont]
      simp only [if_true]
      rw [if_pos (by rw [← hr1, hempty]; rfl)]
    · -- nonempty remainder: pointer is the highest remaining id
      intro hne
      refine ⟨?_, hmax_mem hne, hmax_bound⟩
      by_cases hcont : ((d.filter (fun q => q.2 == CardStatus.in_progress)).map
          (fun q => q.1)).contains (toString n) = true
      · rw [cleanup_snd_some, hcont]
        simp only [if_true]
        rw [if_neg (fun hemp =>
          hne (by rw [hr1] at *; exact List.isEmpty_iff.mp hemp))]
        rfl
      · -- the pointer's card is completed, hence remains and is the maximum
        have hcomp : p.2 = CardStatus.completed := by
          cases hstat : p.2 with
          | completed => rfl
          | in_progress =>
              exfalso
              apply hcont
              apply contains_iff_mem.mpr
              have hpf : p ∈ d.filter (fun q => q.2 == CardStatus.in_progress) :=
                List.mem_filter.mpr ⟨hpd, by rw [hstat]; rfl⟩
              rw [← hpk]
              exact List.mem_map_of_mem (fun q => q.1) hpf
        have hpF : p ∈ (cleanup_interrupted_cards d (some (toString n))).1 := by
          rw [hr1]
          exact List.mem_filter.mpr ⟨hpd, by rw [hcomp]; rfl⟩
        have hge : n ≤ maxIntKey (cleanup_interrupted_cards d (some (toString n))).1 := by
          have hb := hmax_bound p hpF
          rw [hpk, pyInt_toString] at hb
          exact hb
        have hmaxEq : maxIntKey (cleanup_interrupted_cards d (some (toString n))).1 = n :=
          le_antisymm hmax_le_n hge
        rw [cleanup_snd_some]
        rw [Bool.not_eq_true] at hcont
        rw [hcont]
        simp only [Bool.false_eq_true, if_false]
        rw [hmaxEq]

/-! ## Fuzzy span locator: `_fuzzy_match_in_source`

The rapidfuzz `partial_ratio_alignment` call (an external C++ library, with
`score_cutoff=50`) is an oracle returning either alignment positions in the
source or `None`; the import-error fallback behaves like the `None` case. -/

/-- Python's `sub in s` for strings: `sub` occurs contiguously in `s`. -/
def pyContains (s sub : PyStr) : Bool :=
  match s with
  | [] => sub.isEmpty
  | _ :: t => sub.isPrefixOf s || pyContains t sub

/-- `sub` is a contiguous substring of `s`. -/
def IsSubstringOf (sub s : PyStr) : Prop := ∃ a b, s = a ++ sub ++ b

theorem isPrefixOf_iff_exists {α : Type} [BEq α] [LawfulBEq α] :
    ∀ (l₁ l₂ : List α), (l₁.isPrefixOf l₂ = true ↔ ∃ t, l₂ = l₁ ++ t) := by
  intro l₁
  induction l₁ with
  | nil => intro l₂; simp [List.isPrefixOf]
  | cons a as ih =>
    intro l₂
    cases l₂ with
    | nil => simp [List.isPrefixOf]
    | cons b bs =>
        simp only [List.isPrefixOf, Bool.and_eq_true, beq_iff_eq, ih bs,
          List.cons_append, List.cons.injEq]
        constructor
        · rintro ⟨rfl, t, rfl⟩; exact ⟨t, rfl, rfl⟩
        · rintro ⟨t, rfl, rfl⟩; exact ⟨rfl, t, rfl⟩

theorem pyContains_iff (s sub : PyStr) :
    pyContains s sub = true ↔ IsSubstringOf sub s := by
  induction s with
  | nil =>
      simp only [pyContains, List.isEmpty_iff, IsSubstringOf]
      constructor
      · rintro rfl; exact ⟨[], [], rfl⟩
      · rintro ⟨a, b, h⟩
        rcases List.append_eq_nil.mp (List.append_eq_nil.mp h.symm).1 with ⟨_, h2⟩
        exact h2
  | cons c t ih =>
      simp only [pyContains, Bool.or_eq_true, ih,
        isPrefixOf_iff_exists sub (c :: t), IsSubstringOf]
      constructor
      · rintro (⟨b, hb⟩ | ⟨a, b, hab⟩)
        · exact ⟨[], b, by simpa using hb⟩
        · exact ⟨c :: a, b, by simp [hab]⟩
      · rintro ⟨a, b, hab⟩
        cases a with
        | nil => exact Or.inl ⟨b, by simpa using hab⟩
        | cons a0 a' =>
            refine Or.inr ⟨a', b, ?_⟩
            have := hab
            simp only [List.cons_append, List.cons.injEq] at this
            exact this.2

/-- Python slice `l[a:b]` (clamped at the ends, for `a ≤ b`). -/
def listSlice (l : PyStr) (a b : Nat) : PyStr := (l.take b).drop a

/-- Result of `rapidfuzz.fuzz.partial_ratio_alignment`: positions of the best
matching window in the source. -/
structure FuzzyAlignment where
  dest_start : Nat
  dest_end : Nat
deriving Repr, DecidableEq

/-- Oracle for the external aligner: `none` models both a score below the
cutoff and the import-error fallback. -/
def FuzzyOracle := PyStr → PyStr → Option FuzzyAlignment

/-- `_fuzzy_match_in_source`. -/
def fuzzy_match_in_source (oracle : FuzzyOracle)
    (text_to_match source_text : PyStr) : PyStr :=
  if pyContains source_text text_to_match then text_to_match
  else if text_to_match.length < 5 then text_to_match
  else
    match oracle text_to_match source_text with
    | none => text_to_match
    | some r =>
        let matched_text := listSlice source_text r.dest_start r.dest_end
        if matched_text.isEmpty then text_to_match else matched_text

theorem isSubstringOf_slice (l : PyStr) (a b : Nat) :
    IsSubstringOf (listSlice l a b) l := by
  refine ⟨(l.take b).take a, l.drop b, ?_⟩
  rw [listSlice, List.take_append_drop, List.take_append_drop]

/-- Claim C8: when the target is already a verbatim substring of the source,
the locator returns exactly the target (idempotence); in general the result
is either a contiguous substring of the source (the aligner's window) or the
target itself (the fallback paths). -/
theorem C8_fuzzy_locator (oracle : FuzzyOracle) (target source : PyStr) :
    (pyContains source target = true →
      fuzzy_match_in_source oracle target source = target) ∧
    (IsSubstringOf (fuzzy_match_in_source oracle target source) source ∨
      fuzzy_match_in_source oracle target source = target) := by
  constructor
  · intro h
    unfold fuzzy_match_in_source
    rw [if_pos h]
  · unfold fuzzy_match_in_source
    by_cases h1 : pyContains source target = true
    · exact Or.inr (by rw [if_pos h1])
    · rw [if_neg h1]
      by_cases h2 : target.length < 5
      · exact Or.inr (by rw [if_pos h2])
      · rw [if_neg h2]
        cases oracle target source with
        | none => exact Or.inr rfl
        | some r =>
            dsimp only
            by_cases h3 : (listSlice source r.dest_start r.dest_end).isEmpty = true
            · exact Or.inr (by rw [if_pos h3])
            · refine Or.inl ?_
              rw [if_neg h3]
              exact isSubstringOf_slice source r.dest_start r.dest_end

/-- Claim C8's general clause is false as stated: a short target absent from
the source is returned as-is and is not a contiguous substring of the
source. -/
theorem C8_counterexample :
    fuzzy_match_in_source (fun _ _ => none) ['z', 'z'] ['a', 'b', 'c'] = ['z', 'z'] ∧
    ¬ IsSubstringOf ['z', 'z'] ['a', 'b', 'c'] := by
  refine ⟨by decide, fun h => absurd ((pyContains_iff _ _).mpr h) (by decide)⟩

theorem C8_fuzzy_locator_witness :
    fuzzy_match_in_source (fun _ _ => none) ['b', 'c'] ['a', 'b', 'c', 'd'] = ['b', 'c'] :=
  (C8_fuzzy_locator (fun _ _ => none) ['b', 'c'] ['a', 'b', 'c', 'd']).1 (by decide)

/-! ## Highlight compositor: separator handling and span merging -/

def HIGHLIGHT_OPEN : PyStr := "<highlight>".data

def HIGHLIGHT_CLOSE : PyStr := "</highlight>".data

def wrapHighlight (cs : PyStr) : PyStr := HIGHLIGHT_OPEN ++ cs ++ HIGHLIGHT_CLOSE

/-- `re.search(r"(\||(?:^|\n)- )", text)`: a table separator `|` anywhere,
a list marker `- ` at the start of the string, or `\n- ` anywhere. -/
def hasSeparator (text : PyStr) : Bool :=
  text.any (fun c => c == '|') ||
    (match text with
     | '-' :: ' ' :: _ => true
     | _ => false) ||
    pyContains text ['\n', '-', ' ']

/-- `re.split` with the captured separator pattern: scan left to right for
the leftmost match (`|` first, then `- ` at position 0 only, then `\n- `),
emitting alternating text parts and separator parts. `cur` is the current
text part, reversed; the `Bool` says whether we are still at position 0. -/
def sepSplitAux : Bool → PyStr → PyStr → List PyStr
  | _, cur, [] => [cur.reverse]
  | _, cur, '|' :: rest => cur.reverse :: ['|'] :: sepSplitAux false [] rest
  | _, cur, '\n' :: '-' :: ' ' :: rest =>
      cur.reverse :: ['\n', '-', ' '] :: sepSplitAux false [] rest
  | true, cur, '-' :: ' ' :: rest =>
      cur.reverse :: ['-', ' '] :: sepSplitAux false [] rest
  | _, cur, c :: rest => sepSplitAux false (c :: cur) rest

/-- `re.match(separator_pattern, part)`: the part starts with a separator. -/
def isSepPart : PyStr → Bool
  | '|' :: _ => true
  | '-' :: ' ' :: _ => true
  | '\n' :: '-' :: ' ' :: _ => true
  | _ => false

def lstripWs (cs : PyStr) : PyStr := cs.dropWhile Char.isWhitespace

def rstripWs (cs : PyStr) : PyStr := (cs.reverse.dropWhile Char.isWhitespace).reverse

def stripWs (cs : PyStr) : PyStr := rstripWs (lstripWs cs)

/-- `part[:len(part) - len(part.lstrip())]`. -/
def leadingWs (cs : PyStr) : PyStr := cs.takeWhile Char.isWhitespace

/-- `part[len(part.rstrip()):]`. -/
def trailingWs (cs : PyStr) : PyStr := (cs.reverse.takeWhile Char.isWhitespace).reverse

/-- `_apply_highlight_with_separator_handling`. -/
def apply_highlight_with_separator_handling (text : PyStr) : PyStr :=
  if !(hasSeparator text) then wrapHighlight text
  else
    let parts := sepSplitAux true [] text
    (parts.map (fun part =>
      if isSepPart part then part
      else if (stripWs part).isEmpty then part
      else leadingWs part ++ wrapHighlight (stripWs part) ++ trailingWs part)).join

/-- Python `text.find(sub)` scanning from offset `i`; `none` is `-1`. -/
def strFindFrom (needle : PyStr) : PyStr → Nat → Option Nat
  | [], i => if needle.isEmpty then some i else none
  | hay@(_ :: t), i =>
      if needle.isPrefixOf hay then some i else strFindFrom needle t (i + 1)

/-- Step 1 of `_apply_highlight_to_string`: locate every support snippet via
the fuzzy matcher and `find`, collecting `(start, start + len)` ranges. -/
def collectRanges (oracle : FuzzyOracle) (text : PyStr)
    (support_content_list : List PyStr) : List (Nat × Nat) :=
  support_content_list.foldl
    (fun ranges support_content =>
      let matched_text := fuzzy_match_in_source oracle support_content text
      if matched_text.isEmpty then ranges
      else
        match strFindFrom matched_text text 0 with
        | some start => ranges ++ [(start, start + matched_text.length)]
        | none => ranges)
    []

/-- The lexicographic tuple order used by Python's `ranges.sort()`. -/
def rangeLE (a b : Nat × Nat) : Prop :=
  a.1 < b.1 ∨ (a.1 = b.1 ∧ a.2 ≤ b.2)

instance : DecidableRel rangeLE := fun a b => by
  unfold rangeLE
  exact inferInstance

instance : IsTotal (Nat × Nat) rangeLE :=
  ⟨fun a b => by unfold rangeLE; omega⟩

instance : IsTrans (Nat × Nat) rangeLE :=
  ⟨fun a b c hab hbc => by unfold rangeLE at *; omega⟩

/-- Step 2 of `_apply_highlight_to_string`: the merging loop. The accumulator
holds the merged list reversed, so its head is `merged[-1]`. -/
def mergeLoop : List (Nat × Nat) → List (Nat × Nat) → List (Nat × Nat)
  | acc, [] => acc
  | acc, (s, e) :: rest =>
      match acc with
      | (last_start, last_end) :: accTail =>
          if s ≤ last_end then
            mergeLoop ((last_start, max last_end e) :: accTail) rest
          else
            mergeLoop ((s, e) :: (last_start, last_end) :: accTail) rest
      | [] => mergeLoop [(s, e)] rest

def mergeRanges : List (Nat × Nat) → List (Nat × Nat)
  | [] => []
  | r :: rest => (mergeLoop [r] rest).reverse

/-- The per-range insertion of step 3, `result = result[:start] + highlighted
+ result[end:]` with `highlighted` built from `result[start:end]`. -/
def insertHighlight (result : PyStr) (se : Nat × Nat) : PyStr :=
  result.take se.1 ++
    apply_highlight_with_separator_handling (listSlice result se.1 se.2) ++
    result.drop se.2

/-- `_apply_highlight_to_string`. -/
def apply_highlight_to_string (oracle : FuzzyOracle) (text : PyStr)
    (support_content_list : List PyStr) : PyStr :=
  let ranges := collectRanges oracle text support_content_list
  if ranges.isEmpty then text
  else
    let merged := mergeRanges (List.insertionSort rangeLE ranges)
    merged.reverse.foldl insertHighlight text

/-- The merged ranges computed for a text and support list. -/
def mergedRangesOf (oracle : FuzzyOracle) (text : PyStr)
    (support_content_list : List PyStr) : List (Nat × Nat) :=
  mergeRanges (List.insertionSort rangeLE (collectRanges oracle text support_content_list))

/-- Simultaneous (offset-faithful) application of separated ranges against
the original text: the gap before each range is kept, the range's slice of
the original text is wrapped, and the remainder follows. -/
def segmentedHighlight (text : PyStr) : Nat → List (Nat × Nat) → PyStr
  | prev, [] => text.drop prev
  | prev, (s, e) :: rest =>
      listSlice text prev s ++
        apply_highlight_with_separator_handling (listSlice text s e) ++
        segmentedHighlight text e rest

/-! ### Facts about range collection, merging and insertion -/

theorem strFindFrom_bound (needle : PyStr) :
    ∀ (hay : PyStr) (i j : Nat), strFindFrom needle hay i = some j →
      i ≤ j ∧ (j - i) + needle.length ≤ hay.length := by
  intro hay
  induction hay with
  | nil =>
      intro i j h
      rw [strFindFrom] at h
      by_cases he : needle.isEmpty
      · rw [if_pos he] at h
        cases h
        simp [List.isEmpty_iff.mp he]
      · rw [if_neg he] at h
        cases h
  | cons c t ih =>
      intro i j h
      rw [strFindFrom] at h
      by_cases hp : needle.isPrefixOf (c :: t) = true
      · rw [if_pos hp] at h
        cases h
        rcases (isPrefixOf_iff_exists needle (c :: t)).mp hp with ⟨tail, htail⟩
        have : needle.length ≤ (c :: t).length := by
          rw [htail, List.length_append]
          omega
        omega
      · rw [if_neg hp] at h
        have := ih (i + 1) j h
        simp only [List.length_cons]
        omega

theorem collectRanges_wf (oracle : FuzzyOracle) (text : PyStr) :
    ∀ (scs : List PyStr) (acc : List (Nat × Nat)),
      (∀ r ∈ acc, r.1 ≤ r.2 ∧ r.2 ≤ text.length) →
      ∀ r ∈ scs.foldl
          (fun ranges support_content =>
            let matched_text := fuzzy_match_in_source oracle support_content text
            if matched_text.isEmpty then ranges
            else
              match strFindFrom matched_text text 0 with
              | some start => ranges ++ [(start, start + matched_text.length)]
              | none => ranges)
          acc,
        r.1 ≤ r.2 ∧ r.2 ≤ text.length := by
  intro scs
  induction scs with
  | nil => intro acc hacc r hr; exact hacc r hr
  | cons sc rest ih =>
      intro acc hacc r hr
      rw [List.foldl_cons] at hr
      refine ih _ ?_ r hr
      intro q hq
      dsimp only at hq
      by_cases hemp : (fuzzy_match_in_source oracle sc text).isEmpty = true
      · rw [if_pos hemp] at hq
        exact hacc q hq
      · rw [if_neg hemp] at hq
        cases hfind : strFindFrom (fuzzy_match_in_source oracle sc text) text 0 with
        | none => rw [hfind] at hq; exact hacc q hq
        | some start =>
            rw [hfind] at hq
            rcases List.mem_append.mp hq with hq' | hq'
            · exact hacc q hq'
            · rcases List.mem_singleton.mp hq' with rfl
              have hb := strFindFrom_bound _ text 0 start hfind
              constructor
              · omega
              · omega

theorem wf_of_collectRanges (oracle : FuzzyOracle) (text : PyStr)
    (supports : List PyStr) :
    ∀ r ∈ collectRanges oracle text supports, r.1 ≤ r.2 ∧ r.2 ≤ text.length := by
  intro r hr
  exact collectRanges_wf oracle text supports [] (by intro q hq; simp at hq) r hr

theorem mergeLoop_spec (L : Nat) :
    ∀ (rest : List (Nat × Nat)) (hd : Nat × Nat) (tl : List (Nat × Nat)),
      List.Chain' (fun a b => b.2 < a.1) (hd :: tl) →
      (∀ r ∈ hd :: tl, r.1 ≤ r.2 ∧ r.2 ≤ L) →
      (∀ r ∈ rest, r.1 ≤ r.2 ∧ r.2 ≤ L) →
      List.Sorted rangeLE rest →
      (∀ r ∈ rest, hd.1 ≤ r.1) →
      mergeLoop (hd :: tl) rest ≠ [] ∧
      List.Chain' (fun a b => b.2 < a.1) (mergeLoop (hd :: tl) rest) ∧
      (∀ r ∈ mergeLoop (hd :: tl) rest, r.1 ≤ r.2 ∧ r.2 ≤ L) := by
  intro rest
  induction rest with
  | nil =>
      intro hd tl hchain hwf _ _ _
      rw [mergeLoop]
      exact ⟨List.cons_ne_nil hd tl, hchain, hwf⟩
  | cons m rest' ih =>
      intro hd tl hchain hwf hwfrest hsorted hge
      obtain ⟨s, e⟩ := m
      rw [mergeLoop]
      have hm_wf : s ≤ e ∧ e ≤ L := hwfrest (s, e) (List.mem_cons_self _ _)
      have hsorted' : List.Sorted rangeLE rest' := (List.sorted_cons.mp hsorted).2
      have hle_rest : ∀ r ∈ rest', rangeLE (s, e) r := (List.sorted_cons.mp hsorted).1
      have hwfrest' : ∀ r ∈ rest', r.1 ≤ r.2 ∧ r.2 ≤ L :=
        fun r hr => hwfrest r (List.mem_cons_of_mem _ hr)
      obtain ⟨hs, he⟩ := hd
      by_cases hcmp : s ≤ he
      · rw [if_pos hcmp]
        apply ih (hs, max he e) tl
        · rcases List.chain'_cons'.mp hchain with ⟨hhd, htl⟩
          exact List.chain'_cons'.mpr ⟨hhd, htl⟩
        · intro r hr
          rcases List.mem_cons.mp hr with rfl | hr'
          · have := hwf (hs, he) (List.mem_cons_self _ _)
            simp only at this ⊢
            omega
          · exact hwf r (List.mem_cons_of_mem _ hr')
        · exact hwfrest'
        · exact hsorted'
        · intro r hr
          exact le_trans (hge (s, e) (List.mem_cons_self _ _) |>.trans (le_refl s))
            (by
              rcases hle_rest r hr with h | ⟨h, _⟩
              · exact le_of_lt h
              · exact le_of_eq h) |>.trans (le_refl r.1) |>.trans (le_refl r.1)
      · rw [if_neg hcmp]
        apply ih (s, e) ((hs, he) :: tl)
        · exact List.chain'_cons'.mpr
            ⟨by intro b hb; cases hb; simp only; omega, hchain⟩
        · intro r hr
          rcases List.mem_cons.mp hr with rfl | hr'
          · exact hm_wf
          · exact hwf r hr'
        · exact hwfrest'
        · exact hsorted'
        · intro r hr
          rcases hle_rest r hr with h | ⟨h, _⟩
          · exact le_of_lt h
          · exact le_of_eq h

theorem mergeRanges_spec (L : Nat) (rs : List (Nat × Nat))
    (hsorted : List.Sorted rangeLE rs)
    (hwf : ∀ r ∈ rs, r.1 ≤ r.2 ∧ r.2 ≤ L) :
    List.Chain' (fun a b => a.2 < b.1) (mergeRanges rs) ∧
    (∀ r ∈ mergeRanges rs, r.1 ≤ r.2 ∧ r.2 ≤ L) ∧
    (rs ≠ [] → mergeRanges rs ≠ []) := by
  cases rs with
  | nil =>
      refine ⟨List.chain'_nil, by intro r hr; simp [mergeRanges] at hr, ?_⟩
      intro h; exact absurd rfl h
  | cons r rest =>
      have hspec := mergeLoop_spec L rest r []
        (List.chain'_singleton r)
        (by
          intro q hq
          rcases List.mem_cons.mp hq with rfl | hq'
          · exact hwf q (List.mem_cons_self _ _)
          · simp at hq')
        (fun q hq => hwf q (List.mem_cons_of_mem _ hq))
        ((List.sorted_cons.mp hsorted).2)
        (by
          intro q hq
          rcases (List.sorted_cons.mp hsorted).1 q hq with h | ⟨h, _⟩
          · exact le_of_lt h
          · exact le_of_eq h)
      refine ⟨?_, ?_, ?_⟩
      · rw [mergeRanges]
        rw [List.chain'_reverse]
        exact hspec.2.1
      · intro q hq
        rw [mergeRanges] at hq
        exact hspec.2.2 q (List.mem_reverse.mp hq)
      · intro _
        rw [mergeRanges]
        intro hrev
        exact hspec.1 (by simpa using congrArg List.reverse hrev)

theorem drop_eq_take_drop_append (u : PyStr) (prev k : Nat) (h : prev ≤ k) :
    u.drop prev = (u.take k).drop prev ++ u.drop k := by
  conv_lhs => rw [← List.take_append_drop k u]
  rw [List.drop_append_eq_append_drop]
  by_cases hb : prev ≤ (u.take k).length
  · rw [Nat.sub_eq_zero_of_le hb, List.drop_zero]
  · have hlen : (u.take k).length = min k u.length := List.length_take k u
    have hku : u.length ≤ k := by omega
    rw [List.drop_eq_nil_of_le hku, List.drop_nil, List.drop_eq_nil_of_le]
    rw [hlen]
    omega

theorem listSlice_split (t : PyStr) (prev k s : Nat) (h1 : prev ≤ k) (h2 : k ≤ s) :
    listSlice t prev s = listSlice t prev k ++ listSlice t k s := by
  have hkk : (t.take s).take k = t.take k := by
    rw [List.take_take, min_eq_left h2]
  rw [listSlice, listSlice, listSlice, ← hkk]
  exact drop_eq_take_drop_append (t.take s) prev k h1

theorem segmented_shift (text : PyStr) (rs : List (Nat × Nat)) (prev k : Nat)
    (h1 : prev ≤ k)
    (h2 : match rs with | [] => True | (s, _) :: _ => k ≤ s) :
    segmentedHighlight text prev rs =
      listSlice text prev k ++ segmentedHighlight text k rs := by
  cases rs with
  | nil =>
      rw [segmentedHighlight, segmentedHighlight, listSlice]
      exact drop_eq_take_drop_append text prev k h1
  | cons m rest =>
      obtain ⟨s, e⟩ := m
      rw [segmentedHighlight, segmentedHighlight,
        listSlice_split text prev k s h1 h2]
      simp [List.append_assoc]

theorem take_of_take_append (text X : PyStr) (e s : Nat) (hs : s ≤ e)
    (he : e ≤ text.length) :
    (text.take e ++ X).take s = text.take s := by
  rw [List.take_append_eq_append_take]
  have hlen : (text.take e).length = e := by
    rw [List.length_take]
    omega
  rw [List.take_take, min_eq_left hs, hlen, Nat.sub_eq_zero_of_le (by omega),
    List.take_zero, List.append_nil]

theorem drop_of_take_append (text X : PyStr) (e : Nat) (he : e ≤ text.length) :
    (text.take e ++ X).drop e = X := by
  rw [List.drop_append_eq_append_drop]
  have hlen : (text.take e).length = e := by
    rw [List.length_take]
    omega
  rw [hlen, Nat.sub_self, List.drop_zero,
    List.drop_eq_nil_of_le (le_of_eq hlen), List.nil_append]

/-- The reversed insertion loop applied to separated, in-bounds merged ranges
equals the simultaneous decomposition against the original text: processing
from the last merged range to the first means earlier insertions never shift
the offsets still to be processed. -/
theorem insertLoop_eq_segmented (text : PyStr) :
    ∀ merged : List (Nat × Nat),
      List.Chain' (fun a b => a.2 < b.1) merged →
      (∀ r ∈ merged, r.1 ≤ r.2 ∧ r.2 ≤ text.length) →
      merged.reverse.foldl insertHighlight text = segmentedHighlight text 0 merged := by
  intro merged
  induction merged with
  | nil => intro _ _; rfl
  | cons m rest ih =>
      intro hchain hwf
      obtain ⟨s, e⟩ := m
      have hm : s ≤ e ∧ e ≤ text.length := hwf (s, e) (List.mem_cons_self _ _)
      have hchain' : List.Chain' (fun a b => a.2 < b.1) rest :=
        (List.chain'_cons'.mp hchain).2
      have hhead : ∀ b ∈ rest.head?, (s, e).2 < b.1 :=
        (List.chain'_cons'.mp hchain).1
      have hwf' : ∀ r ∈ rest, r.1 ≤ r.2 ∧ r.2 ≤ text.length :=
        fun r hr => hwf r (List.mem_cons_of_mem _ hr)
      have hB := ih hchain' hwf'
      have hshift : segmentedHighlight text 0 rest =
          listSlice text 0 e ++ segmentedHighlight text e rest := by
        apply segmented_shift text rest 0 e (Nat.zero_le e)
        cases rest with
        | nil => trivial
        | cons m' rest' =>
            obtain ⟨s', e'⟩ := m'
            have := hhead (s', e') rfl
            simp only at this
            omega
      have hslice0 : listSlice text 0 e = text.take e := by
        rw [listSlice, List.drop_zero]
      rw [List.reverse_cons, List.foldl_append, hB, List.foldl_cons,
        List.foldl_nil]
      rw [insertHighlight]
      rw [hshift, hslice0]
      rw [take_of_take_append text _ e s hm.1 hm.2]
      rw [drop_of_take_append text _ e hm.2]
      have hsliceB : listSlice (text.take e ++ segmentedHighlight text e rest) s e =
          listSlice text s e := by
        rw [listSlice, take_of_take_append text _ e e (le_refl e) hm.2, listSlice]
      rw [hsliceB]
      have hslice0s : listSlice text 0 s = text.take s := by
        rw [listSlice, List.drop_zero]
      rw [segmentedHighlight, hslice0s, listSlice]

/-- Claim C7: `_apply_highlight_to_string` first merges overlapping or
adjacent located ranges — the merged list is strictly separated and within
bounds — and then inserts delimiters from the last merged range to the
first, so the result equals the simultaneous decomposition against the
original text; on the separator-free text `"abcdefgh"` with supports
`"abcde"` and `"defgh"` (spans `[0,5)` and `[3,8)`) it emits exactly one
delimiter pair around the merged span `[0,8)`. -/
theorem C7_highlight_compositor (oracle : FuzzyOracle) (text : PyStr)
    (supports : List PyStr) :
    List.Chain' (fun a b => a.2 < b.1) (mergedRangesOf oracle text supports) ∧
    (∀ r ∈ mergedRangesOf oracle text supports,
      r.1 ≤ r.2 ∧ r.2 ≤ text.length) ∧
    (collectRanges oracle text supports = [] →
      apply_highlight_to_string oracle text supports = text) ∧
    (collectRanges oracle text supports ≠ [] →
      apply_highlight_to_string oracle text supports =
        segmentedHighlight text 0 (mergedRangesOf oracle text supports)) ∧
    apply_highlight_to_string (fun _ _ => none) "abcdefgh".data
        ["abcde".data, "defgh".data] =
      "<highlight>abcdefgh</highlight>".data := by
  have hsorted : List.Sorted rangeLE
      (List.insertionSort rangeLE (collectRanges oracle text supports)) :=
    List.sorted_insertionSort rangeLE _
  have hwfsort : ∀ r ∈ List.insertionSort rangeLE (collectRanges oracle text supports),
      r.1 ≤ r.2 ∧ r.2 ≤ text.length := by
    intro r hr
    exact wf_of_collectRanges oracle text supports r
      ((List.perm_insertionSort rangeLE _).mem_iff.mp hr)
  have hspec := mergeRanges_spec text.length _ hsorted hwfsort
  refine ⟨hspec.1, hspec.2.1, ?_, ?_, by decide⟩
  · intro hnil
    rw [apply_highlight_to_string]
    rw [hnil]
    rfl
  · intro hne
    rw [apply_highlight_to_string]
    rw [if_neg (by
      intro hemp
      exact hne (List.isEmpty_iff.mp hemp))]
    exact insertLoop_eq_segmented text _ hspec.1 hspec.2.1

theorem C7_highlight_compositor_witness :
    apply_highlight_to_string (fun _ _ => none) "ab".data ["zz".data] = "ab".data := by
  have h := C7_highlight_compositor (fun _ _ => none) "ab".data ["zz".data]
  exact h.2.2.1 (by decide)

/-! ## Root extraction: `_extract_support_from_source_card`

`json.loads` is an oracle `JsonParseFn`; the LLM responses are a stream of
abstract responses, each already classified by whether the tool-call
arguments were decodable (`json.loads` of the arguments succeeding is part of
the response model, since the arguments come from the external service). -/

/-- A JSON value, as far as the extraction pipeline inspects it: an array, a
string, or anything else (with its Python type name, used in the error
message). -/
inductive Json where
  | jarr (xs : List Json)
  | jstr (s : PyStr)
  | jother (typeName : String)

/-- Oracle for `json.loads` on a fragment of text. -/
def JsonParseFn := PyStr → Option Json

/-- `value.replace` chain normalizing smart quotes (U+201C/U+201D to `"`,
U+2018/U+2019 to an apostrophe). -/
def fixSmartQuotes (cs : PyStr) : PyStr :=
  cs.map (fun c =>
    if c == Char.ofNat 0x201C || c == Char.ofNat 0x201D then '"'
    else if c == Char.ofNat 0x2018 || c == Char.ofNat 0x2019 then Char.ofNat 39
    else c)

/-- Finalizing one element of `_split_json_array_elements`: strip it, skip it
when empty, parse it, fall back to unquoting when it looks like a quoted
string, and fail (`none`) otherwise. -/
def splitElemFinalize (jsonParse : JsonParseFn) (cur : PyStr)
    (acc : List Json) : Option (List Json) :=
  let element_str := stripWs cur
  if element_str.isEmpty then some acc
  else
    match jsonParse element_str with
    | some j => some (acc ++ [j])
    | none =>
        match element_str with
        | '"' :: _ =>
            if element_str.getLast? == some '"' then
              some (acc ++ [Json.jstr ((element_str.drop 1).dropLast)])
            else none
        | _ => none

/-- The state machine of `_split_json_array_elements`: tracks the current
element, whether we are inside a quoted string, and whether the next
character is escaped; commas outside strings end an element. -/
def splitJsonArrayElements (jsonParse : JsonParseFn) :
    PyStr → PyStr → Bool → Bool → List Json → Option (List Json)
  | [], cur, _, _, acc => splitElemFinalize jsonParse cur acc
  | c :: rest, cur, inString, escNext, acc =>
      if escNext then splitJsonArrayElements jsonParse rest (cur ++ [c]) inString false acc
      else if c == '\\' then
        splitJsonArrayElements jsonParse rest (cur ++ [c]) inString true acc
      else if c == '"' then
        splitJsonArrayElements jsonParse rest (cur ++ [c]) (!inString) false acc
      else if c == ',' && !inString then
        match splitElemFinalize jsonParse cur acc with
        | some acc' => splitJsonArrayElements jsonParse rest [] inString false acc'
        | none => none
      else splitJsonArrayElements jsonParse rest (cur ++ [c]) inString false acc

/-- `re.findall` of the quoted-substring pattern. For this pattern the greedy
engine always closes at the next quote character (the escape alternative can
never start, since the leading class already consumed every non-quote), so
the matches are exactly the runs between the 1st and 2nd, 3rd and 4th, …
quote characters. -/
def findQuotedAux : PyStr → Option PyStr → List PyStr
  | [], _ => []
  | '"' :: rest, none => findQuotedAux rest (some [])
  | '"' :: rest, some cur => cur.reverse :: findQuotedAux rest none
  | _ :: rest, none => findQuotedAux rest none
  | c :: rest, some cur => findQuotedAux rest (some (c :: cur))

def findQuoted (value : PyStr) : List PyStr := findQuotedAux value none

/-- `_try_parse_stringified_list`: the four repair strategies in order. -/
def tryParseStringifiedList (jsonParse : JsonParseFn) (value : PyStr) :
    Option (List Json) :=
  match jsonParse value with
  | some (Json.jarr xs) => some xs
  | _ =>
    match jsonParse (fixSmartQuotes value) with
    | some (Json.jarr xs) => some xs
    | _ =>
      let stripped := stripWs value
      let s3 : Option (List Json) :=
        match stripped with
        | '[' :: _ =>
            if stripped.getLast? == some ']' then
              let inner := stripWs ((stripped.drop 1).dropLast)
              if inner.isEmpty then some []
              else splitJsonArrayElements jsonParse inner [] false false []
            else none
        | _ => none
      match s3 with
      | some xs => some xs
      | none =>
          let ms := findQuoted value
          if ms.isEmpty then none
          else some (ms.map (fun m =>
            match jsonParse ('"' :: (m ++ ['"'])) with
            | some j => j
            | none => Json.jstr m))

/-- `_ensure_list`: `(parsed list, error)`. -/
def ensure_list (jsonParse : JsonParseFn) (value : Json) (field_name : String) :
    Option (List Json) × Option String :=
  match value with
  | Json.jarr xs => (some xs, none)
  | Json.jstr sv =>
      (match tryParseStringifiedList jsonParse sv with
       | some parsed => (some parsed, none)
       | none =>
           (none, some (field_name ++ " is not valid JSON and could not be recovered")))
  | Json.jother t => (none, some (field_name ++ " must be list, got " ++ t))

/-- The decoded arguments of a `report_extraction_result` call; the field is
`none` when the key is absent (the code defaults it to `[]`). -/
structure ExtractionArgs where
  extracted_content_list : Option Json
  reasoning : PyStr

/-- One response of the generation service during root extraction. A
`toolCall` with `args = none` is a call whose argument payload failed
`json.loads`. -/
inductive LlmResp where
  | noToolCall
  | toolCall (name : String) (args : Option ExtractionArgs)

/-- The per-attempt body of the retry loop: `some parsedList` when every
check passes, `none` when the attempt must be retried (no tool call, wrong
tool, undecodable arguments, or a snippets field that is not a genuine array
even after the repair strategies). -/
def extraction_attempt (jsonParse : JsonParseFn) (resp : LlmResp) :
    Option (List Json) :=
  match resp with
  | .noToolCall => none
  | .toolCall name args =>
      if name ≠ "report_extraction_result" then none
      else
        match args with
        | none => none
        | some a =>
            (ensure_list jsonParse (a.extracted_content_list.getD (Json.jarr []))
              "extracted_content_list").1

/-- The `for attempt in range(max_retries)` loop, escalating with a
`RuntimeError` after exhaustion; on success an empty extracted list defaults
to the original traced fragment. -/
def extract_support_loop (jsonParse : JsonParseFn) (resps : Nat → LlmResp)
    (traced_content : PyStr) : Nat → Nat → Except String (List Json)
  | _, 0 =>
      Except.error "_extract_support_from_source_card failed after 3 attempts"
  | attempt, fuel + 1 =>
      match extraction_attempt jsonParse (resps attempt) with
      | some parsed_list =>
          Except.ok (if parsed_list.isEmpty then [Json.jstr traced_content]
            else parsed_list)
      | none => extract_support_loop jsonParse resps traced_content (attempt + 1) fuel

/-- `_extract_support_from_source_card` with the default `max_retries = 3`. -/
def extract_support_from_source_card (jsonParse : JsonParseFn)
    (resps : Nat → LlmResp) (traced_content : PyStr) : Except String (List Json) :=
  extract_support_loop jsonParse resps traced_content 0 3

/-- Claim C9: root extraction consumes one response per defective attempt
(no tool call, wrong tool name, undecodable arguments, or a snippets field
that is not a genuine array, the repair strategies having been attempted on
a stringified field first), escalates with a fatal error exactly when the
first three responses are all defective (so at most 3 attempts are ever
made, and the result depends only on responses 0..2), and on the first good
response returns its list, defaulting to the original fragment as the sole
snippet when that list is empty. -/
theorem C9_root_extraction_retry (jsonParse : JsonParseFn)
    (resps : Nat → LlmResp) (traced_content : PyStr) :
    ((∃ msg, extract_support_from_source_card jsonParse resps traced_content =
        Except.error msg) ↔
      ∀ i, i < 3 → extraction_attempt jsonParse (resps i) = none) ∧
    (∀ k, k < 3 → (∀ i, i < k → extraction_attempt jsonParse (resps i) = none) →
      ∀ xs, extraction_attempt jsonParse (resps k) = some xs →
        extract_support_from_source_card jsonParse resps traced_content =
          Except.ok (if xs.isEmpty then [Json.jstr traced_content] else xs)) ∧
    (∀ resps' : Nat → LlmResp, (∀ i, i < 3 → resps i = resps' i) →
      extract_support_from_source_card jsonParse resps traced_content =
        extract_support_from_source_card jsonParse resps' traced_content) ∧
    (∀ (sv : PyStr) (reasoning : PyStr),
      extraction_attempt jsonParse
          (.toolCall "report_extraction_result"
            (some ⟨some (Json.jstr sv), reasoning⟩)) =
        tryParseStringifiedList jsonParse sv) ∧
    (∀ resp, extraction_attempt jsonParse resp = none ↔
      (resp = .noToolCall ∨
       (∃ nm args, resp = .toolCall nm args ∧ nm ≠ "report_extraction_result") ∨
       resp = .toolCall "report_extraction_result" none ∨
       (∃ a, resp = .toolCall "report_extraction_result" (some a) ∧
         (ensure_list jsonParse (a.extracted_content_list.getD (Json.jarr []))
           "extracted_content_list").1 = none))) := by
  have hloop : ∀ resps' : Nat → LlmResp,
      extract_support_from_source_card jsonParse resps' traced_content =
        match extraction_attempt jsonParse (resps' 0) with
        | some xs => Except.ok (if xs.isEmpty then [Json.jstr traced_content] else xs)
        | none =>
          match extraction_attempt jsonParse (resps' 1) with
          | some xs => Except.ok (if xs.isEmpty then [Json.jstr traced_content] else xs)
          | none =>
            match extraction_attempt jsonParse (resps' 2) with
            | some xs => Except.ok (if xs.isEmpty then [Json.jstr traced_content] else xs)
            | none => Except.error
                "_extract_support_from_source_card failed after 3 attempts" := by
    intro resps'
    rw [extract_support_from_source_card]
    rw [extract_support_loop]
    cases extraction_attempt jsonParse (resps' 0) with
    | some xs => rfl
    | none =>
        rw [extract_support_loop]
        cases extraction_attempt jsonParse (resps' 1) with
        | some xs => rfl
        | none =>
            rw [extract_support_loop]
            cases extraction_attempt jsonParse (resps' 2) with
            | some xs => rfl
            | none => rfl
  refine ⟨?_, ?_, ?_, ?_, ?_⟩
  · rw [hloop resps]
    constructor
    · rintro ⟨msg, hmsg⟩ i hi
      cases h0 : extraction_attempt jsonParse (resps 0) with
      | some xs => rw [h0] at hmsg; cases hmsg
      | none =>
        cases h1 : extraction_attempt jsonParse (resps 1) with
        | some xs => rw [h0, h1] at hmsg; cases hmsg
        | none =>
          cases h2 : extraction_attempt jsonParse (resps 2) with
          | some xs => rw [h0, h1, h2] at hmsg; cases hmsg
          | none => interval_cases i <;> assumption
    · intro hall
      rw [hall 0 (by omega), hall 1 (by omega), hall 2 (by omega)]
      exact ⟨_, rfl⟩
  · intro k hk hprev xs hxs
    rw [hloop resps]
    interval_cases k
    · rw [hxs]
    · rw [hprev 0 (by omega), hxs]
    · rw [hprev 0 (by omega), hprev 1 (by omega), hxs]
  · intro resps' hagree
    rw [hloop resps, hloop resps', hagree 0 (by omega), hagree 1 (by omega),
      hagree 2 (by omega)]
  · intro sv reasoning
    rw [extraction_attempt]
    rw [if_neg (by simp)]
    simp only [Option.getD_some, ensure_list]
    cases tryParseStringifiedList jsonParse sv with
    | some parsed => rfl
    | none => rfl
  · intro resp
    cases resp with
    | noToolCall =>
        simp [extraction_attempt]
    | toolCall nm args =>
        by_cases hnm : nm = "report_extraction_result"
        · subst hnm
          cases args with
          | none => simp [extraction_attempt]
          | some a =>
              simp only [extraction_attempt, if_neg (by simp : ¬ ("report_extraction_result" ≠ "report_extraction_result"))]
              constructor
              · intro h
                exact Or.inr (Or.inr (Or.inr ⟨a, rfl, h⟩))
              · rintro (h | ⟨nm', args', hEq, hne⟩ | h | ⟨a', hEq, h⟩)
                · cases h
                · cases hEq; exact absurd rfl hne
                · cases h
                · cases hEq; exact h
        · simp only [extraction_attempt, if_pos (by simpa using hnm)]
          constructor
          · intro _
            exact Or.inr (Or.inl ⟨nm, args, rfl, hnm⟩)
          · intro _
            trivial

def respsW : Nat → LlmResp := fun i =>
  if i = 0 then .noToolCall
  else .toolCall "report_extraction_result" (some ⟨some (Json.jarr []), []⟩)

theorem C9_root_extraction_retry_witness :
    extract_support_from_source_card (fun _ => none) respsW ['x'] =
      Except.ok [Json.jstr ['x']] := by
  have h := (C9_root_extraction_retry (fun _ => none) respsW ['x']).2.1
  have happ := h 1 (by omega)
    (by
      intro i hi
      interval_cases i
      rfl)
    [] rfl
  simpa using happ

/-! ## Citation tracing: `_trace_node_recursive` and `trace_source`

The two LLM calls (`_find_support_in_card`, already retry-wrapped) are an
oracle returning `(has_support, support_content_list)`; `support_content_list
= none` models a missing key. The card store's mutable content is threaded
explicitly so the frame property (tracing never writes a card) is a theorem
about the returned store. -/

/-- One entry of a `WebSearchResultCard`'s `search_result_list`: the
`"snippet"` field when present as a string, plus the other fields. -/
structure SearchItem where
  snippet : Option PyStr
  otherFields : String

/-- The kind-specific main content a card exposes to tracing
(`_get_card_main_content`). -/
inductive CardContent where
  | strContent (s : PyStr)
  | listContent (items : List SearchItem)

/-- The tracing environment: explicit-predecessor ids per card and the two
oracles. -/
structure TraceEnv where
  refs : String → List String
  findSupport : PyStr → String → Bool × Option (List PyStr)
  fuzzy : FuzzyOracle

def highlightItem (oracle : FuzzyOracle) (supports : List PyStr)
    (it : SearchItem) : SearchItem :=
  { it with snippet :=
      it.snippet.map (fun sn => apply_highlight_to_string oracle sn supports) }

/-- `_apply_highlight_to_content`, threading the content store. The string
case builds a fresh string; the list case applies `copy.deepcopy` before
updating the copy's snippet fields, so in both cases no store cell is
written and the store is returned unchanged. -/
def apply_highlight_to_content (oracle : FuzzyOracle)
    (store : String → CardContent) (card_id : String)
    (support_content_list : List PyStr) :
    (String → CardContent) × CardContent :=
  match store card_id with
  | .strContent sc =>
      (store, .strContent (apply_highlight_to_string oracle sc support_content_list))
  | .listContent items =>
      let result_list := items.map (highlightItem oracle support_content_list)
      (store, .listContent result_list)

/-- A node of the trace result tree; `children = none` marks an unsupported
node, distinct from the empty list. -/
inductive TraceResultNode where
  | mk (card_id : String) (support_content_list : Option (List PyStr))
      (card_main_content_with_highlight : Option CardContent)
      (children : Option (List TraceResultNode))

/-- The "unsupported" child attached for a predecessor when no predecessor
supports the claim: null snippet list, null highlighted content, null
children. -/
def nullSupportNode (card_id : String) : TraceResultNode :=
  .mk card_id none none none

/-- `"\n\n".join(...)`. -/
def joinNN (xs : List PyStr) : PyStr := List.intercalate ['\n', '\n'] xs

mutual

/-- `_trace_node_recursive`, returning the children assigned to the node and
the trace-failure flag (threaded instead of the mutable `self.trace_failed`),
plus the content store. `fuel` bounds the recursion depth; `none` models
divergence (impossible on the acyclic stores the code maintains). -/
def trace_node_recursive (env : TraceEnv) (fuel : Nat)
    (store : String → CardContent) (card_id : String)
    (content_to_trace : PyStr) (failed : Bool) :
    Option ((String → CardContent) × List TraceResultNode × Bool) :=
  match fuel with
  | 0 => none
  | fuel' + 1 =>
      let explicit_refs := env.refs card_id
      if explicit_refs.isEmpty then some (store, [], failed)
      else
        match trace_refs env fuel' store explicit_refs content_to_trace failed with
        | none => none
        | some (store', supporting_nodes, failed') =>
            if supporting_nodes.isEmpty then
              some (store', explicit_refs.map nullSupportNode, true)
            else some (store', supporting_nodes, failed')
termination_by (fuel, 0)

/-- The `for ref_card_id in explicit_refs` loop: ask the support oracle, and
for each supporting predecessor build the highlighted child and recurse into
it with the newline-joined supporting snippets. -/
def trace_refs (env : TraceEnv) (fuel : Nat) (store : String → CardContent)
    (refs : List String) (content_to_trace : PyStr) (failed : Bool) :
    Option ((String → CardContent) × List TraceResultNode × Bool) :=
  match refs with
  | [] => some (store, [], failed)
  | ref_card_id :: rest =>
      let result := env.findSupport content_to_trace ref_card_id
      match result.2 with
      | some support_content_list =>
          if result.1 && !support_content_list.isEmpty then
            let hl := apply_highlight_to_content env.fuzzy store ref_card_id
              support_content_list
            let combined := joinNN support_content_list
            match trace_node_recursive env fuel hl.1 ref_card_id combined failed with
            | none => none
            | some (store', childChildren, failed') =>
                let child := TraceResultNode.mk ref_card_id
                  (some support_content_list) (some hl.2) (some childChildren)
                match trace_refs env fuel store' rest content_to_trace failed' with
                | none => none
                | some (store'', siblings, failed'') =>
                    some (store'', child :: siblings, failed'')
          else trace_refs env fuel store rest content_to_trace failed
      | none => trace_refs env fuel store rest content_to_trace failed
termination_by (fuel, refs.length + 1)

end

/-- `InfoTraceAgent.trace_source`, given the (successful) root-extraction
snippet list: reset the flag, highlight the root card's content, recurse,
and report `"Failed"` iff the flag was set during the walk. -/
def trace_source (env : TraceEnv) (fuel : Nat) (store : String → CardContent)
    (card_id : String) (extracted_content_list : List PyStr) :
    Option ((String → CardContent) × String × TraceResultNode) :=
  let hl := apply_highlight_to_content env.fuzzy store card_id extracted_content_list
  let combined := joinNN extracted_content_list
  match trace_node_recursive env fuel hl.1 card_id combined false with
  | none => none
  | some (store', children, failed) =>
      let status := if failed then "Failed" else "Success"
      some (store', status,
        .mk card_id (some extracted_content_list) (some hl.2) (some children))

mutual

/-- Some node of the tree (itself included) has null children. -/
def hasNullDescendant : TraceResultNode → Bool
  | .mk _ _ _ none => true
  | .mk _ _ _ (some cs) => hasNullDescendantL cs

def hasNullDescendantL : List TraceResultNode → Bool
  | [] => false
  | n :: rest => hasNullDescendant n || hasNullDescendantL rest

end

theorem apply_highlight_to_content_fst (oracle : FuzzyOracle)
    (store : String → CardContent) (card_id : String) (l : List PyStr) :
    (apply_highlight_to_content oracle store card_id l).1 = store := by
  rw [apply_highlight_to_content]
  cases store card_id <;> rfl

theorem hasNull_map_null (refs : List String) (h : refs ≠ []) :
    hasNullDescendantL (refs.map nullSupportNode) = true := by
  cases refs with
  | nil => exact absurd rfl h
  | cons r rest =>
      rw [List.map_cons, hasNullDescendantL, nullSupportNode, hasNullDescendant]
      rfl

/-- Frame and flag invariant for `trace_node_recursive` at a given fuel: the
store is returned unchanged, and the outgoing flag is the incoming flag or-ed
with "some produced node has null children". -/
def NodeFrameFlag (env : TraceEnv) (fuel : Nat) : Prop :=
  ∀ store card_id content failed store' nodes failed',
    trace_node_recursive env fuel store card_id content failed =
      some (store', nodes, failed') →
    store' = store ∧ failed' = (failed || hasNullDescendantL nodes)

/-- The same invariant for `trace_refs`. -/
def RefsFrameFlag (env : TraceEnv) (fuel : Nat) : Prop :=
  ∀ store refs content failed store' nodes failed',
    trace_refs env fuel store refs content failed =
      some (store', nodes, failed') →
    store' = store ∧ failed' = (failed || hasNullDescendantL nodes)

theorem refs_spec_of_node_spec (env : TraceEnv) (fuel : Nat)
    (hP : NodeFrameFlag env fuel) : RefsFrameFlag env fuel := by
  intro store refs content failed store' nodes failed' h
  induction refs generalizing store failed store' nodes failed' with
  | nil =>
      rw [trace_refs] at h
      cases h
      simp [hasNullDescendantL]
  | cons r rest ih =>
      rw [trace_refs] at h
      dsimp only at h
      cases hsnd : (env.findSupport content r).2 with
      | none =>
          rw [hsnd] at h
          exact ih store failed store' nodes failed' h
      | some scl =>
          rw [hsnd] at h
          dsimp only at h
          by_cases hcond : ((env.findSupport content r).1 && !scl.isEmpty) = true
          · rw [if_pos hcond] at h
            rw [apply_highlight_to_content_fst] at h
            cases hnode : trace_node_recursive env fuel store r (joinNN scl) failed with
            | none => rw [hnode] at h; cases h
            | some res1 =>
                obtain ⟨store1, childChildren, failed1⟩ := res1
                rw [hnode] at h
                dsimp only at h
                obtain ⟨hs1, hf1⟩ :=
                  hP store r (joinNN scl) failed store1 childChildren failed1 hnode
                cases hrest : trace_refs env fuel store1 rest content failed1 with
                | none => rw [hrest] at h; cases h
                | some res2 =>
                    obtain ⟨store2, siblings, failed2⟩ := res2
                    rw [hrest] at h
                    dsimp only at h
                    obtain ⟨hs2, hf2⟩ :=
                      ih store1 failed1 store2 siblings failed2 hrest
                    cases h
                    refine ⟨hs2.trans hs1, ?_⟩
                    rw [hf2, hf1]
                    rw [hasNullDescendantL]
                    rw [show hasNullDescendant
                        (TraceResultNode.mk r (some scl)
                          (some (apply_highlight_to_content env.fuzzy store r scl).2)
                          (some childChildren)) =
                        hasNullDescendantL childChildren from by
                      rw [hasNullDescendant]]
                    rw [Bool.or_assoc]
          · rw [if_neg hcond] at h
            exact ih store failed store' nodes failed' h

theorem node_spec_zero (env : TraceEnv) : NodeFrameFlag env 0 := by
  intro store card_id content failed store' nodes failed' h
  rw [trace_node_recursive] at h
  cases h

theorem node_spec_succ (env : TraceEnv) (fuel : Nat)
    (hQ : RefsFrameFlag env fuel) : NodeFrameFlag env (fuel + 1) := by
  intro store card_id content failed store' nodes failed' h
  rw [trace_node_recursive] at h
  by_cases hempty : (env.refs card_id).isEmpty = true
  · rw [if_pos hempty] at h
    cases h
    simp [hasNullDescendantL]
  · rw [if_neg hempty] at h
    cases hrefs : trace_refs env fuel store (env.refs card_id) content failed with
    | none => rw [hrefs] at h; cases h
    | some res =>
        obtain ⟨store1, supporting, failed1⟩ := res
        rw [hrefs] at h
        dsimp only at h
        obtain ⟨hs1, hf1⟩ :=
          hQ store (env.refs card_id) content failed store1 supporting failed1 hrefs
        by_cases hsup : supporting.isEmpty = true
        · rw [if_pos hsup] at h
          cases h
          refine ⟨hs1, ?_⟩
          rw [hasNull_map_null (env.refs card_id)
            (fun hc => hempty (by rw [hc]; rfl))]
          rw [Bool.or_true]
        · rw [if_neg hsup] at h
          cases h
          exact ⟨hs1, hf1⟩

theorem trace_frame_flag (env : TraceEnv) :
    ∀ fuel, NodeFrameFlag env fuel ∧ RefsFrameFlag env fuel := by
  intro fuel
  induction fuel with
  | zero =>
      exact ⟨node_spec_zero env, refs_spec_of_node_spec env 0 (node_spec_zero env)⟩
  | succ f ih =>
      have hP := node_spec_succ env f ih.2
      exact ⟨hP, refs_spec_of_node_spec env (f + 1) hP⟩

theorem trace_refs_skip (env : TraceEnv) (fuel : Nat) (content : PyStr) :
    ∀ (refs : List String) (store : String → CardContent) (failed : Bool),
      (∀ r ∈ refs, ¬((env.findSupport content r).1 = true ∧
        ∃ l, (env.findSupport content r).2 = some l ∧ l ≠ [])) →
      trace_refs env fuel store refs content failed = some (store, [], failed) := by
  intro refs
  induction refs with
  | nil => intro store failed _; rw [trace_refs]
  | cons r rest ih =>
      intro store failed hall
      rw [trace_refs]
      dsimp only
      cases hsnd : (env.findSupport content r).2 with
      | none =>
          exact ih store failed
            (fun q hq => hall q (List.mem_cons_of_mem _ hq))
      | some scl =>
          have hcond : ((env.findSupport content r).1 && !scl.isEmpty) = false := by
            cases hfst : (env.findSupport content r).1 with
            | false => rfl
            | true =>
                cases hscl : scl.isEmpty with
                | true => rfl
                | false =>
                    exfalso
                    exact hall r (List.mem_cons_self _ _)
                      ⟨hfst, scl, hsnd, fun hnil => by
                        rw [hnil] at hscl
                        cases hscl⟩
          dsimp only
          rw [if_neg (by rw [hcond]; exact Bool.false_ne_true)]
          exact ih store failed
            (fun q hq => hall q (List.mem_cons_of_mem _ hq))

/-- Claim C3: a node whose card has no explicit predecessors gets an empty
child list; a node with predecessors none of which returns support with a
non-empty snippet list gets exactly one null child per predecessor (null
snippet list, null highlighted content, null children) and the trace-failure
flag is set; and `trace_source` reports `"Failed"` iff the flag was set at
some point during the walk — equivalently, iff some node of the returned
tree carries null children — and `"Success"` otherwise. -/
theorem C3_trace_children_and_status (env : TraceEnv) :
    (∀ (fuel : Nat) (store : String → CardContent) (card_id : String)
        (content : PyStr) (failed : Bool),
      env.refs card_id = [] →
      trace_node_recursive env (fuel + 1) store card_id content failed =
        some (store, [], failed)) ∧
    (∀ (fuel : Nat) (store : String → CardContent) (card_id : String)
        (content : PyStr) (failed : Bool),
      env.refs card_id ≠ [] →
      (∀ r ∈ env.refs card_id, ¬((env.findSupport content r).1 = true ∧
        ∃ l, (env.findSupport content r).2 = some l ∧ l ≠ [])) →
      trace_node_recursive env (fuel + 1) store card_id content failed =
        some (store, (env.refs card_id).map nullSupportNode, true)) ∧
    (∀ (fuel : Nat) (store : String → CardContent) (card_id : String)
        (extracted : List PyStr) store' status tree,
      trace_source env fuel store card_id extracted = some (store', status, tree) →
      (status = "Failed" ↔ hasNullDescendant tree = true) ∧
      (status = "Failed" ∨ status = "Success")) := by
  refine ⟨?_, ?_, ?_⟩
  · intro fuel store card_id content failed h
    rw [trace_node_recursive]
    rw [h]
    rfl
  · intro fuel store card_id content failed hne hall
    rw [trace_node_recursive]
    rw [if_neg (fun hc => hne (List.isEmpty_iff.mp hc))]
    rw [trace_refs_skip env fuel content (env.refs card_id) store failed hall]
    rfl
  · intro fuel store card_id extracted store' status tree h
    rw [trace_source] at h
    dsimp only at h
    cases hnode : trace_node_recursive env fuel
        (apply_highlight_to_content env.fuzzy store card_id extracted).1
        card_id (joinNN extracted) false with
    | none => rw [hnode] at h; cases h
    | some res =>
        obtain ⟨store1, children, failed1⟩ := res
        rw [hnode] at h
        dsimp only at h
        cases h
        have hflag := ((trace_frame_flag env fuel).1 _ _ _ _ _ _ _ hnode).2
        rw [Bool.false_or] at hflag
        have htree : hasNullDescendant
            (TraceResultNode.mk card_id (some extracted)
              (some (apply_highlight_to_content env.fuzzy store card_id extracted).2)
              (some children)) = hasNullDescendantL children := by
          rw [hasNullDescendant]
        refine ⟨?_, ?_⟩
        · rw [htree, ← hflag]
          cases failed1 with
          | true => exact iff_of_true (by rw [if_pos rfl]) rfl
          | false =>
              exact iff_of_false (by rw [if_neg (by simp)]; decide)
                (by simp)
        · cases failed1 with
          | true => exact Or.inl (by rw [if_pos rfl])
          | false => exact Or.inr (by rw [if_neg (by simp)])

/-- Claim C10: tracing never mutates stored card content. `trace_source`
threads the content store through the walk; highlights are applied to a deep
copy of list-valued content and to fresh strings for string-valued content,
so the store that comes back is pointwise the store that went in. -/
theorem C10_trace_no_mutation (env : TraceEnv) (fuel : Nat)
    (store : String → CardContent) (card_id : String)
    (extracted : List PyStr)
    (r : (String → CardContent) × String × TraceResultNode)
    (h : trace_source env fuel store card_id extracted = some r) :
    (∀ cid, r.1 cid = store cid) ∧
    (∀ (oracle : FuzzyOracle) (st : String → CardContent) (cid : String)
        (l : List PyStr),
      (apply_highlight_to_content oracle st cid l).1 = st) := by
  refine ⟨?_, fun oracle st cid l => apply_highlight_to_content_fst oracle st cid l⟩
  rw [trace_source] at h
  dsimp only at h
  cases hnode : trace_node_recursive env fuel
      (apply_highlight_to_content env.fuzzy store card_id extracted).1
      card_id (joinNN extracted) false with
  | none => rw [hnode] at h; cases h
  | some res =>
      obtain ⟨store1, children, failed1⟩ := res
      rw [hnode] at h
      dsimp only at h
      have hframe := ((trace_frame_flag env fuel).1 _ _ _ _ _ _ _ hnode).1
      rw [apply_highlight_to_content_fst] at hframe
      cases h
      intro cid
      exact congrFun hframe cid

/-- A two-card environment for concrete runs: card `"A"` cites card `"B"`,
and the support oracle finds no support anywhere. -/
def envW : TraceEnv where
  refs := fun id => if id = "A" then ["B"] else []
  findSupport := fun _ _ => (false, some [])
  fuzzy := fun _ _ => none

def storeW : String → CardContent := fun _ => CardContent.strContent []

theorem C3_trace_children_and_status_witness :
    trace_node_recursive envW 1 storeW "B" [] false = some (storeW, [], false) ∧
    trace_node_recursive envW 1 storeW "A" [] false =
      some (storeW, [nullSupportNode "B"], true) := by
  have h := C3_trace_children_and_status envW
  refine ⟨h.1 0 storeW "B" [] false (by decide), ?_⟩
  have hb := h.2.1 0 storeW "A" [] false (by decide)
    (by
      intro q hq
      rintro ⟨hfst, -⟩
      simp [envW] at hfst)
  exact hb

theorem C10_trace_no_mutation_witness :
    (trace_source envW 2 storeW "A" [['h', 'i']]).elim False
      (fun r => r.1 "B" = storeW "B") := by
  have happ : (apply_highlight_to_content envW.fuzzy storeW "A" [['h', 'i']]).1 =
      storeW := apply_highlight_to_content_fst _ _ _ _
  have hrefs : trace_refs envW 1 storeW ["B"] (joinNN [['h', 'i']]) false =
      some (storeW, [], false) := by
    apply trace_refs_skip
    intro q hq
    rintro ⟨hfst, -⟩
    simp [envW] at hfst
  have hnodeEq : trace_node_recursive envW 2 storeW "A" (joinNN [['h', 'i']]) false =
      some (storeW, [nullSupportNode "B"], true) := by
    rw [trace_node_recursive]
    rw [show envW.refs "A" = ["B"] from rfl]
    rw [if_neg (by simp)]
    rw [hrefs]
    rfl
  have hsome : trace_source envW 2 storeW "A" [['h', 'i']] =
      some (storeW, "Failed",
        TraceResultNode.mk "A" (some [['h', 'i']])
          (some (apply_highlight_to_content envW.fuzzy storeW "A" [['h', 'i']]).2)
          (some [nullSupportNode "B"])) := by
    rw [trace_source]
    dsimp only
    rw [happ, hnodeEq]
    rfl
  rw [hsome]
  exact (C10_trace_no_mutation envW 2 storeW "A" [['h', 'i']] _ hsome).1 "B"

theorem C6_interrupt_cleanup_witness :
    (cleanup_interrupted_cards [("1", CardStatus.in_progress)] (some "1")).1 = [] ∧
    (cleanup_interrupted_cards [("1", CardStatus.in_progress)] (some "1")).2 = none := by
  have h := C6_interrupt_cleanup [("1", CardStatus.in_progress)] (some "1") 1
    (by decide) (by decide)
  exact ⟨rfl, h.2.2.2.1 rfl⟩

end IDR
